import Mathlib

/-!
# Verification of the glow interpreter kernels (`InterpreterNodes.cpp`)

A shallow embedding of the per-instruction numeric kernels of the glow
reference interpreter.  The reference floating-point type `FloatTy` is
modelled by the exact rationals `ℚ`; transcendental library calls
(`std::exp`, `std::sqrt`, `std::pow`) are passed in as function
parameters, so every statement below is about the accumulation,
indexing and control structure of the kernels, which is independent of
the particular values those functions take.

Tensors are modelled as total functions from coordinate tuples to
elements; a C++ handle write `H.at({a,b,c,d}) = v` becomes a functional
update `upd H (a,b,c,d) v`, and each C++ `for` loop becomes `loop n B`,
a left fold of the body `B` over `0, 1, …, n-1`.
-/

set_option maxHeartbeats 1600000

namespace Glow

/-- The reference floating point type, modelled exactly. -/
abbrev FloatTy := ℚ

/-- A rank-1 tensor of floats (flat/raw indexing). -/
abbrev T1 := ℕ → FloatTy

/-- A rank-2 tensor of floats. -/
abbrev T2 := ℕ × ℕ → FloatTy

/-- A rank-4 tensor of floats (NHWC indexing). -/
abbrev T4 := ℕ × ℕ × ℕ × ℕ → FloatTy

/-- A rank-5 tensor of `size_t` values (the max-pool `SXY` scratch). -/
abbrev T5n := ℕ × ℕ × ℕ × ℕ × ℕ → ℕ

/-- The `ShapeNHWC` shape from the glow IR: batch, height, width, channels. -/
structure ShapeNHWC where
  n : ℕ
  h : ℕ
  w : ℕ
  c : ℕ

/-- Functional update of a tensor cell: `upd g a v` is `g` with cell `a` set to `v`. -/
def upd {α β : Type} [DecidableEq α] (g : α → β) (a : α) (v : β) : α → β :=
  fun c => if c = a then v else g c

/-- Accumulating update, the C++ `g[a] += v`. -/
def updAdd {α : Type} [DecidableEq α] (g : α → ℚ) (a : α) (v : ℚ) : α → ℚ :=
  upd g a (g a + v)

/-- A counted `for` loop: run the body `B` on `i = 0, 1, …, n-1`, threading state. -/
def loop {σ : Type _} (n : ℕ) (B : ℕ → σ → σ) (s : σ) : σ :=
  (List.range n).foldl (fun s i => B i s) s

theorem loop_zero {σ : Type _} (B : ℕ → σ → σ) (s : σ) : loop 0 B s = s := rfl

theorem loop_succ {σ : Type _} (n : ℕ) (B : ℕ → σ → σ) (s : σ) :
    loop (n + 1) B s = B n (loop n B s) := by
  unfold loop
  rw [List.range_succ, List.foldl_append]
  rfl

/-- If every iteration of a loop preserves an observation, the loop preserves it. -/
theorem loop_obs_frame {σ β : Type _} (B : ℕ → σ → σ) (obs : σ → β) :
    ∀ n : ℕ, (∀ i < n, ∀ s, obs (B i s) = obs s) → ∀ s, obs (loop n B s) = obs s := by
  intro n
  induction n with
  | zero => intro _ s; rfl
  | succ m ih =>
    intro hf s
    rw [loop_succ, hf m (Nat.lt_succ_self m)]
    exact ih (fun i hi => hf i (Nat.lt_succ_of_lt hi)) s

/-- Evaluation of a loop through one distinguished iteration `i0`: if iterations
before `i0` preserve an auxiliary observation `aux`, iteration `i0` sets the
main observation to `V (aux s)`, and later iterations preserve the main
observation, then the loop's final main observation is `V (aux s)`. -/
theorem loop_obs_hit {σ β γ : Type _} (B : ℕ → σ → σ) (obs : σ → β) (aux : σ → γ)
    (V : γ → β) (i0 : ℕ) :
    ∀ n : ℕ, i0 < n →
      (∀ i < i0, ∀ s, aux (B i s) = aux s) →
      (∀ s, obs (B i0 s) = V (aux s)) →
      (∀ i, i0 < i → i < n → ∀ s, obs (B i s) = obs s) →
      ∀ s, obs (loop n B s) = V (aux s) := by
  intro n
  induction n with
  | zero => intro h; exact absurd h (Nat.not_lt_zero _)
  | succ m ih =>
    intro hi0 hpre hhit hpost s
    rw [loop_succ]
    by_cases hc : i0 = m
    · subst hc
      rw [hhit]
      congr 1
      exact loop_obs_frame B aux i0 hpre s
    · have h1 : i0 < m := by omega
      rw [hpost m (by omega) (Nat.lt_succ_self m)]
      exact ih h1 hpre hhit (fun i ha hb => hpost i ha (by omega)) s

/-- A loop each of whose iterations adds a state-independent quantity to a
scalar observation sums those quantities. -/
theorem loop_obs_sum {σ : Type _} (B : ℕ → σ → σ) (obs : σ → ℚ) (v : ℕ → ℚ) :
    ∀ n : ℕ, (∀ i < n, ∀ s, obs (B i s) = obs s + v i) → ∀ s,
      obs (loop n B s) = obs s + ∑ i ∈ Finset.range n, v i := by
  intro n
  induction n with
  | zero => intro _ s; simp [loop_zero]
  | succ m ih =>
    intro hf s
    rw [loop_succ, hf m (Nat.lt_succ_self m),
      ih (fun i hi => hf i (Nat.lt_succ_of_lt hi)) s, Finset.sum_range_succ]
    ring

/-- Predicate: `F` transforms a grad-tensor state by adding the fixed delta `D` pointwise. -/
def AddBy {α : Type} (F : (α → ℚ) → (α → ℚ)) (D : α → ℚ) : Prop :=
  ∀ g c, F g c = g c + D c

theorem addBy_updAdd {α : Type} [DecidableEq α] (a : α) (v : ℚ) :
    AddBy (fun g => updAdd g a v) (fun c => if c = a then v else 0) := by
  intro g c
  unfold updAdd upd
  by_cases h : c = a
  · subst h; simp
  · simp [h]

theorem addBy_comp {α : Type} {F F' : (α → ℚ) → (α → ℚ)} {D D' : α → ℚ}
    (h : AddBy F D) (h' : AddBy F' D') :
    AddBy (fun g => F' (F g)) (fun c => D c + D' c) := by
  intro g c
  show F' (F g) c = g c + (D c + D' c)
  rw [h' (F g) c, h g c]
  ring

theorem addBy_ite {α : Type} (p : Prop) [Decidable p] {F : (α → ℚ) → (α → ℚ)}
    {D : α → ℚ} (h : AddBy F D) :
    AddBy (fun g => if p then F g else g) (fun c => if p then D c else 0) := by
  intro g c
  by_cases hp : p <;> simp [hp, h g c]

theorem addBy_loop {α : Type} {B : ℕ → (α → ℚ) → (α → ℚ)} {D : ℕ → α → ℚ} :
    ∀ n : ℕ, (∀ i < n, AddBy (B i) (D i)) →
      AddBy (loop n B) (fun c => ∑ i ∈ Finset.range n, D i c) := by
  intro n
  induction n with
  | zero => intro _ g c; simp [loop_zero]
  | succ m ih =>
    intro h g c
    have h1 : B m (loop m B g) c = loop m B g c + D m c :=
      h m (Nat.lt_succ_self m) (loop m B g) c
    have h2 : loop m B g c = g c + ∑ i ∈ Finset.range m, D i c :=
      ih (fun i hi => h i (Nat.lt_succ_of_lt hi)) g c
    show loop (m + 1) B g c = g c + ∑ i ∈ Finset.range (m + 1), D i c
    rw [loop_succ, h1, h2, Finset.sum_range_succ]
    ring

/-! ## Shared spatial-window helpers -/

/-- The sliding-window anchor `x`/`y` of the kernels: it starts at `-pad` and
advances by `stride` on every output step (`ssize_t x = -ssize_t(pad); …
x += stride` in the source). -/
def anchor (pad stride : ℕ) (a : ℕ) : ℤ :=
  -(pad : ℤ) + (a : ℤ) * stride

/-- The skip test of the spatial kernels:
`ox < 0 || oy < 0 || ox >= ssize_t(limH) || oy >= ssize_t(limW)`. -/
def outOfRange (limH limW : ℕ) (ox oy : ℤ) : Bool :=
  decide (ox < 0) || decide (oy < 0) || decide ((limH : ℤ) ≤ ox) || decide ((limW : ℤ) ≤ oy)

/-! ## Convolution -/

/-- The kernel `Interpreter::fwdConvolutionInst`.  For each batch `n` (bounded by
`idim.n`), output channel `d`, and output position `(ay, ax)` (bounded by
`odim.w`/`odim.h`), accumulate `filter(d,fx,fy,fd) * src(n,ox,oy,fd)` over the
window, skipping positions that fail the bounds test — which in this kernel is
taken against `odim.h`/`odim.w`, the OUTPUT spatial extents — add the bias and
write `dest(n,ax,ay,d)`. -/
def fwdConvolutionInst (odim idim : ShapeNHWC) (kernel pad stride : ℕ)
    (inW filterW : T4) (biasW : T1) (outW : T4) : T4 :=
  loop idim.n (fun n acc =>
    loop odim.c (fun d acc =>
      loop odim.w (fun ay acc =>
        loop odim.h (fun ax acc =>
          let y : ℤ := anchor pad stride ay
          let x : ℤ := anchor pad stride ax
          let sum : FloatTy :=
            loop kernel (fun fy s =>
              loop kernel (fun fx s =>
                let ox : ℤ := x + fx
                let oy : ℤ := y + fy
                if outOfRange odim.h odim.w ox oy then s
                else
                  loop idim.c (fun fd s =>
                    s + filterW (d, fx, fy, fd) * inW (n, ox.toNat, oy.toNat, fd)) s) s) 0
          upd acc (n, ax, ay, d) (sum + biasW d)) acc) acc) acc) outW

/-- Following the words of claim C1 (and spec §4.2): the convolution forward
sum is claimed to include the window term exactly when `x+fx` and `y+fy` lie
inside the INPUT spatial range `idim.h × idim.w`.  This definition is the
claim's formula, to be compared with `fwdConvolutionInst` above. -/
def convForwardClaim (idim : ShapeNHWC) (kernel pad stride : ℕ)
    (inW filterW : T4) (biasW : T1) (n ax ay d : ℕ) : FloatTy :=
  (∑ fy ∈ Finset.range kernel, ∑ fx ∈ Finset.range kernel,
    (if outOfRange idim.h idim.w (anchor pad stride ax + fx) (anchor pad stride ay + fy) then 0
     else ∑ fd ∈ Finset.range idim.c,
       filterW (d, fx, fy, fd) *
         inW (n, (anchor pad stride ax + fx).toNat, (anchor pad stride ay + fy).toNat, fd)))
  + biasW d

/-- C1: the convolution forward kernel is claimed to include the window term
exactly when `x+fx` and `y+fy` lie inside the INPUT spatial range.  The code
instead tests the window position against the OUTPUT extents `odim.h`/`odim.w`.
On a 2×2 all-ones input with a 2×2 all-ones filter, zero bias, K=2, S=1, P=0
(output sized 1×1), the code produces 1 at the sole output cell — only the
`(fx,fy) = (0,0)` term survives its `odim` bounds test — while the claim's
input-range rule yields 4 (every window position is inside the 2×2 input). -/
theorem C1_convolution_window_range_divergence :
    fwdConvolutionInst ⟨1, 1, 1, 1⟩ ⟨1, 2, 2, 1⟩ 2 0 1
        (fun _ => 1) (fun _ => 1) (fun _ => 0) (fun _ => 0) (0, 0, 0, 0) = 1
    ∧ convForwardClaim ⟨1, 2, 2, 1⟩ 2 0 1
        (fun _ => 1) (fun _ => 1) (fun _ => 0) 0 0 0 0 = 4 := by
  constructor <;>
    · simp only [fwdConvolutionInst, convForwardClaim, loop_succ, loop_zero, anchor, outOfRange,
        upd, updAdd, Finset.sum_range_succ, Finset.sum_range_zero]
      norm_num

/-- A loop whose body writes the state-independent value `v i` to cell `k i`:
reading back cell `k i0` gives `v i0` when no later iteration writes that cell. -/
theorem loop_upd_get {α β : Type} [DecidableEq α] (k : ℕ → α) (v : ℕ → β) (n i0 : ℕ)
    (hi0 : i0 < n) (hinj : ∀ i, i0 < i → i < n → k i ≠ k i0) (g : α → β) :
    loop n (fun i o => upd o (k i) (v i)) g (k i0) = v i0 := by
  refine loop_obs_hit _ (fun o => o (k i0)) (fun _ => ()) (fun _ => v i0) i0 n hi0 ?_ ?_ ?_ g
  · intro i _ s; rfl
  · intro s; simp [upd]
  · intro i h1 h2 s
    show upd s (k i) (v i) (k i0) = s (k i0)
    unfold upd
    rw [if_neg (fun h => hinj i h1 h2 h.symm)]

/-- A loop whose body writes to cells `k i` leaves every other cell unchanged. -/
theorem loop_upd_frame {α β : Type} [DecidableEq α] (k : ℕ → α) (v : ℕ → β) (n : ℕ) (c : α)
    (hc : ∀ i < n, k i ≠ c) (g : α → β) :
    loop n (fun i o => upd o (k i) (v i)) g c = g c := by
  refine loop_obs_frame _ (fun o => o c) n ?_ g
  intro i hi s
  show upd s (k i) (v i) c = s c
  unfold upd
  rw [if_neg (fun h => hc i hi h.symm)]

/-! ## ReLU -/

/-- The kernel `Interpreter::fwdReluInst`: `out[i] = (in[i] < 0 ? 0 : in[i])` over the flat index. -/
def fwdReluInst (size : ℕ) (inW outW : T1) : T1 :=
  loop size (fun i o => upd o i (if inW i < 0 then 0 else inW i)) outW

/-- The kernel `Interpreter::bwdReluInst`: `inG[i] += (out[i] <= 0 ? 0 : outG[i])`, the gate
reading the forward OUTPUT tensor `outW`. -/
def bwdReluInst (size : ℕ) (outW outG inG : T1) : T1 :=
  loop size (fun i g => updAdd g i (if outW i ≤ 0 then 0 else outG i)) inG

/-- C7: the ReLU backward kernel accumulates `inG i += (y > 0 ? outG i : 0)`
where the gate `y` is the forward output at `i` (which equals `max 0 (src i)`);
the boundary `y = 0` contributes nothing. -/
theorem C7_relu_backward_gates_on_output (size : ℕ) (inW outW0 outG inG : T1) (i : ℕ)
    (hi : i < size) :
    fwdReluInst size inW outW0 i = max 0 (inW i)
    ∧ bwdReluInst size (fwdReluInst size inW outW0) outG inG i
        = inG i + (if 0 < fwdReluInst size inW outW0 i then outG i else 0) := by
  constructor
  · rw [fwdReluInst, loop_upd_get (fun j => j) _ size i hi (fun j h1 _ => by simp; omega) outW0]
    rcases lt_or_le (inW i) 0 with h | h
    · simp [h, le_of_lt h, max_eq_left]
    · simp [not_lt.2 h, max_eq_right h]
  · have hAdd : AddBy (loop size (fun j g => updAdd g j (if fwdReluInst size inW outW0 j ≤ 0 then 0 else outG j)))
        (fun c => ∑ j ∈ Finset.range size,
          (if c = j then (if fwdReluInst size inW outW0 j ≤ 0 then 0 else outG j) else 0)) :=
      addBy_loop size (fun j _ => addBy_updAdd j _)
    rw [bwdReluInst, hAdd inG i]
    show inG i + (∑ j ∈ Finset.range size,
        (if i = j then (if fwdReluInst size inW outW0 j ≤ 0 then 0 else outG j) else 0))
      = inG i + (if 0 < fwdReluInst size inW outW0 i then outG i else 0)
    congr 1
    rw [Finset.sum_ite_eq (Finset.range size) i
      (fun j => if fwdReluInst size inW outW0 j ≤ 0 then 0 else outG j)]
    simp only [Finset.mem_range, hi, if_true]
    rcases le_or_lt (fwdReluInst size inW outW0 i) 0 with h | h
    · simp [h, not_lt.2 h]
    · simp [h, not_le.2 h]

/-- Witness for C7, the spec's scenario S4: `src = [-1, 0, 2]`, `outG = [5, 7, 9]`;
after the forward, the backward adds exactly `[0, 0, 9]` to a zero `inG`
(the boundary `src 1 = 0` gives output `0` and contributes nothing). -/
theorem C7_relu_backward_gates_on_output_witness :
    (0 : ℕ) < 3 ∧
    (∀ i < 3,
      bwdReluInst 3 (fwdReluInst 3 (fun j => if j = 0 then -1 else if j = 1 then 0 else 2) (fun _ => 0))
          (fun j => if j = 0 then 5 else if j = 1 then 7 else 9) (fun _ => 0) i
        = if i = 2 then 9 else 0) := by
  refine ⟨by norm_num, ?_⟩
  intro i hi
  interval_cases i <;>
  · rw [(C7_relu_backward_gates_on_output 3
      (fun j => if j = 0 then -1 else if j = 1 then 0 else 2) (fun _ => 0)
      (fun j => if j = 0 then 5 else if j = 1 then 7 else 9) (fun _ => 0) _ (by norm_num)).2]
    simp only [fwdReluInst, loop_succ, loop_zero, upd, updAdd]
    norm_num

/-! ## Elementwise arithmetic -/

/-- The two kinds of `ArithmeticInst`. -/
inductive ArithOpKind where
  | add : ArithOpKind
  | mul : ArithOpKind

/-- The kernel `Interpreter::fwdArithmeticInst`: elementwise `out = LHS + RHS` or `out = LHS * RHS`. -/
def fwdArithmeticInst (kind : ArithOpKind) (size : ℕ) (LHSW RHSW outW : T1) : T1 :=
  match kind with
  | .add => loop size (fun i o => upd o i (LHSW i + RHSW i)) outW
  | .mul => loop size (fun i o => upd o i (LHSW i * RHSW i)) outW

/-- The kernel `Interpreter::bwdArithmeticInst`: for each flat index the operand gradients
are assigned with plain `=` (not `+=`).  Returns `(LHSG, RHSG)`. -/
def bwdArithmeticInst (kind : ArithOpKind) (size : ℕ) (LHSW RHSW outG LHSG RHSG : T1) :
    T1 × T1 :=
  match kind with
  | .add => loop size (fun i (g : T1 × T1) => (upd g.1 i (outG i), upd g.2 i (outG i)))
      (LHSG, RHSG)
  | .mul => loop size (fun i (g : T1 × T1) =>
      (upd g.1 i (RHSW i * outG i), upd g.2 i (LHSW i * outG i))) (LHSG, RHSG)

/-- C8: the Mul backward kernel OVERWRITES both operand gradients:
`LHSG i = RHS i * outG i` and `RHSG i = LHS i * outG i`, whatever the
pre-existing gradient contents `LHSG`/`RHSG` were. -/
theorem C8_arithmetic_mul_backward_overwrites (size : ℕ) (LHSW RHSW outG LHSG RHSG : T1)
    (i : ℕ) (hi : i < size) :
    (bwdArithmeticInst .mul size LHSW RHSW outG LHSG RHSG).1 i = RHSW i * outG i
    ∧ (bwdArithmeticInst .mul size LHSW RHSW outG LHSG RHSG).2 i = LHSW i * outG i := by
  constructor
  · refine loop_obs_hit _ (fun g : T1 × T1 => g.1 i) (fun _ => ())
      (fun _ => RHSW i * outG i) i size hi ?_ ?_ ?_ (LHSG, RHSG)
    · intro j _ s; rfl
    · intro s; simp [upd]
    · intro j h1 h2 s
      show upd s.1 j (RHSW j * outG j) i = s.1 i
      unfold upd
      rw [if_neg (by omega)]
  · refine loop_obs_hit _ (fun g : T1 × T1 => g.2 i) (fun _ => ())
      (fun _ => LHSW i * outG i) i size hi ?_ ?_ ?_ (LHSG, RHSG)
    · intro j _ s; rfl
    · intro s; simp [upd]
    · intro j h1 h2 s
      show upd s.2 j (LHSW j * outG j) i = s.2 i
      unfold upd
      rw [if_neg (by omega)]

/-- Witness for C8, the spec's scenario S6: `LHS = [2]`, `RHS = [3]`, `outG = [1]`,
pre-existing `LHSG = [99]`: after the backward, `LHSG = [3]` (not `102`) and `RHSG = [2]`. -/
theorem C8_arithmetic_mul_backward_overwrites_witness :
    (0 : ℕ) < 1 ∧
    (bwdArithmeticInst .mul 1 (fun _ => 2) (fun _ => 3) (fun _ => 1) (fun _ => 99) (fun _ => 0)).1 0 = 3
    ∧ (bwdArithmeticInst .mul 1 (fun _ => 2) (fun _ => 3) (fun _ => 1) (fun _ => 99) (fun _ => 0)).2 0 = 2 := by
  refine ⟨by norm_num, ?_, ?_⟩
  · rw [(C8_arithmetic_mul_backward_overwrites 1 (fun _ => 2) (fun _ => 3) (fun _ => 1)
      (fun _ => 99) (fun _ => 0) 0 (by norm_num)).1]
    norm_num
  · rw [(C8_arithmetic_mul_backward_overwrites 1 (fun _ => 2) (fun _ => 3) (fun _ => 1)
      (fun _ => 99) (fun _ => 0) 0 (by norm_num)).2]
    norm_num

/-! ## SoftMax -/

/-- The kernel `Interpreter::fwdSoftMaxInst`, with `std::exp` passed in as `eF`.  Per row:
find the row max, exponentiate the shifted entries into the scratch `EH`
accumulating their sum, then divide `EH` in place by the sum and copy it to the
output.  Returns `(outW, EH)`. -/
def fwdSoftMaxInst (eF : ℚ → ℚ) (N M : ℕ) (inW : T2) (outW EH : T2) : T2 × T2 :=
  loop N (fun n st =>
    let mx : FloatTy := loop M (fun i m => max m (inW (n, i))) (inW (n, 0))
    let se : FloatTy × T2 :=
      loop M (fun i (p : FloatTy × T2) =>
        let e := eF (inW (n, i) - mx)
        (p.1 + e, upd p.2 (n, i) e)) (0, st.2)
    loop M (fun i (q : T2 × T2) =>
      let v := q.2 (n, i) / se.1
      (upd q.1 (n, i) v, upd q.2 (n, i) v)) (st.1, se.2)) (outW, EH)

/-- The kernel `Interpreter::bwdSoftMaxInst`: `inG (n,i) += EH (n,i) - δ(selected n, i)`,
where `selectedH n` models the selected-label tensor entry `Sel(n, 0)`. -/
def bwdSoftMaxInst (N M : ℕ) (EH : T2) (selectedH : ℕ → ℕ) (inG : T2) : T2 :=
  loop N (fun n g =>
    loop M (fun i g =>
      updAdd g (n, i) (EH (n, i) - (if selectedH n = i then 1 else 0))) g) inG

/-- C6: the SoftMax backward kernel accumulates, for every in-range `(n, i)`,
`inG (n,i) += E (n,i) - δ(Sel(n,0), i)` with `δ` the Kronecker delta. -/
theorem C6_softmax_backward_fused_gradient (N M : ℕ) (EH : T2) (selectedH : ℕ → ℕ)
    (inG : T2) (n i : ℕ) (hn : n < N) (hi : i < M) :
    bwdSoftMaxInst N M EH selectedH inG (n, i)
      = inG (n, i) + (EH (n, i) - (if selectedH n = i then 1 else 0)) := by
  have hAdd : AddBy
      (loop N (fun m g => loop M (fun j g =>
        updAdd g (m, j) (EH (m, j) - (if selectedH m = j then 1 else 0))) g))
      (fun c => ∑ m ∈ Finset.range N, ∑ j ∈ Finset.range M,
        (if c = (m, j) then (EH (m, j) - (if selectedH m = j then 1 else 0)) else 0)) :=
    addBy_loop N (fun m _ => addBy_loop M (fun j _ => addBy_updAdd (m, j) _))
  rw [bwdSoftMaxInst, hAdd inG (n, i)]
  show inG (n, i) + (∑ m ∈ Finset.range N, ∑ j ∈ Finset.range M,
      (if ((n : ℕ), (i : ℕ)) = (m, j) then (EH (m, j) - (if selectedH m = j then 1 else 0)) else 0))
    = inG (n, i) + (EH (n, i) - (if selectedH n = i then 1 else 0))
  congr 1
  rw [Finset.sum_eq_single_of_mem n (Finset.mem_range.2 hn) ?_]
  · rw [Finset.sum_eq_single_of_mem i (Finset.mem_range.2 hi) ?_]
    · rw [if_pos rfl]
    · intro j _ hne
      rw [if_neg (fun h => hne (congrArg Prod.snd h).symm)]
  · intro m _ hne
    apply Finset.sum_eq_zero
    intro j _
    rw [if_neg (fun h => hne (congrArg Prod.fst h).symm)]

/-- Witness for C6, the spec's scenario S5: `src (1,3) = [1,1,1]`, `Sel = [0]`,
with an exponential model satisfying `exp 0 = 1`: the forward output row is
`[1/3, 1/3, 1/3]` and the backward adds `[-2/3, 1/3, 1/3]` to a zero `inG`. -/
theorem C6_softmax_backward_fused_gradient_witness :
    (0 : ℕ) < 1 ∧
    (fwdSoftMaxInst (fun _ => 1) 1 3 (fun _ => 1) (fun _ => 0) (fun _ => 0)).1 (0, 0) = 1/3
    ∧ (fwdSoftMaxInst (fun _ => 1) 1 3 (fun _ => 1) (fun _ => 0) (fun _ => 0)).1 (0, 1) = 1/3
    ∧ (fwdSoftMaxInst (fun _ => 1) 1 3 (fun _ => 1) (fun _ => 0) (fun _ => 0)).1 (0, 2) = 1/3
    ∧ bwdSoftMaxInst 1 3 (fwdSoftMaxInst (fun _ => 1) 1 3 (fun _ => 1) (fun _ => 0) (fun _ => 0)).2
        (fun _ => 0) (fun _ => 0) (0, 0) = -(2/3)
    ∧ bwdSoftMaxInst 1 3 (fwdSoftMaxInst (fun _ => 1) 1 3 (fun _ => 1) (fun _ => 0) (fun _ => 0)).2
        (fun _ => 0) (fun _ => 0) (0, 1) = 1/3
    ∧ bwdSoftMaxInst 1 3 (fwdSoftMaxInst (fun _ => 1) 1 3 (fun _ => 1) (fun _ => 0) (fun _ => 0)).2
        (fun _ => 0) (fun _ => 0) (0, 2) = 1/3 := by
  refine ⟨by norm_num, ?_, ?_, ?_, ?_, ?_, ?_⟩
  · simp only [fwdSoftMaxInst, loop_succ, loop_zero, upd, updAdd]; norm_num
  · simp only [fwdSoftMaxInst, loop_succ, loop_zero, upd, updAdd]; norm_num
  · simp only [fwdSoftMaxInst, loop_succ, loop_zero, upd, updAdd]; norm_num
  · rw [C6_softmax_backward_fused_gradient 1 3 _ _ _ 0 0 (by norm_num) (by norm_num)]
    simp only [fwdSoftMaxInst, loop_succ, loop_zero, upd, updAdd]; norm_num
  · rw [C6_softmax_backward_fused_gradient 1 3 _ _ _ 0 1 (by norm_num) (by norm_num)]
    simp only [fwdSoftMaxInst, loop_succ, loop_zero, upd, updAdd]; norm_num
  · rw [C6_softmax_backward_fused_gradient 1 3 _ _ _ 0 2 (by norm_num) (by norm_num)]
    simp only [fwdSoftMaxInst, loop_succ, loop_zero, upd, updAdd]; norm_num

/-! ## Average pooling -/

/-- The window accumulation of `Interpreter::fwdPoolAvg_impl` (the local `sum`):
add `src(n, ox, oy, z)` over the K×K window, skipping positions out of the
INPUT spatial range `idim.h × idim.w`. -/
def avgPoolWindowSum (idim : ShapeNHWC) (kernel : ℕ) (n z : ℕ) (x y : ℤ) (inW : T4) : FloatTy :=
  loop kernel (fun fy s =>
    loop kernel (fun fx s =>
      let ox : ℤ := x + fx
      let oy : ℤ := y + fy
      if outOfRange idim.h idim.w ox oy then s
      else s + inW (n, ox.toNat, oy.toNat, z)) s) 0

/-- The kernel `Interpreter::fwdPoolAvg_impl`: for each output cell, write the window sum
divided by `filterArea = K·K`. -/
def fwdPoolAvgInst (odim idim : ShapeNHWC) (kernel pad stride : ℕ) (inW outW : T4) : T4 :=
  loop odim.n (fun n acc =>
    loop idim.c (fun z acc =>
      loop odim.w (fun ay acc =>
        loop odim.h (fun ax acc =>
          upd acc (n, ax, ay, z)
            (avgPoolWindowSum idim kernel n z (anchor pad stride ax) (anchor pad stride ay) inW
              / ((kernel * kernel : ℕ) : ℚ))) acc) acc) acc) outW

theorem avgPoolWindowSum_eq (idim : ShapeNHWC) (kernel : ℕ) (n z : ℕ) (x y : ℤ) (inW : T4) :
    avgPoolWindowSum idim kernel n z x y inW
      = ∑ fy ∈ Finset.range kernel, ∑ fx ∈ Finset.range kernel,
          (if outOfRange idim.h idim.w (x + fx) (y + fy) then 0
           else inW (n, (x + fx).toNat, (y + fy).toNat, z)) := by
  have hrow : ∀ fy, ∀ s : ℚ,
      loop kernel (fun fx s =>
        if outOfRange idim.h idim.w (x + fx) (y + fy) then s
        else s + inW (n, (x + fx).toNat, (y + fy).toNat, z)) s
      = s + ∑ fx ∈ Finset.range kernel,
          (if outOfRange idim.h idim.w (x + fx) (y + fy) then 0
           else inW (n, (x + fx).toNat, (y + fy).toNat, z)) := by
    intro fy s
    refine loop_obs_sum _ id _ kernel ?_ s
    intro fx _ t
    show (if outOfRange idim.h idim.w (x + fx) (y + fy) then t
      else t + inW (n, (x + fx).toNat, (y + fy).toNat, z)) = _
    by_cases hg : outOfRange idim.h idim.w (x + fx) (y + fy) <;> simp [hg]
  have h2 : avgPoolWindowSum idim kernel n z x y inW
      = 0 + ∑ fy ∈ Finset.range kernel, ∑ fx ∈ Finset.range kernel,
          (if outOfRange idim.h idim.w (x + fx) (y + fy) then 0
           else inW (n, (x + fx).toNat, (y + fy).toNat, z)) := by
    refine loop_obs_sum _ id _ kernel ?_ 0
    intro fy _ s
    exact hrow fy s
  rw [h2, zero_add]

/-- C4: the AvgPool forward output at every in-range `(n, z, ay, ax)` is the
sum of the `src` values at the in-range window positions divided by `K·K` —
the divisor is always `K²` no matter how many positions were valid. -/
theorem C4_avgpool_always_divides_by_k_squared (odim idim : ShapeNHWC)
    (kernel pad stride : ℕ) (inW outW : T4) (n z ay ax : ℕ)
    (hn : n < odim.n) (hz : z < idim.c) (hay : ay < odim.w) (hax : ax < odim.h) :
    fwdPoolAvgInst odim idim kernel pad stride inW outW (n, ax, ay, z)
      = (∑ fy ∈ Finset.range kernel, ∑ fx ∈ Finset.range kernel,
          (if outOfRange idim.h idim.w (anchor pad stride ax + fx) (anchor pad stride ay + fy) then 0
           else inW (n, (anchor pad stride ax + fx).toNat, (anchor pad stride ay + fy).toNat, z)))
        / ((kernel * kernel : ℕ) : ℚ) := by
  have hax_loop : ∀ m z' ay', ∀ acc : T4,
      loop odim.h (fun a acc =>
        upd acc (m, a, ay', z')
          (avgPoolWindowSum idim kernel m z' (anchor pad stride a) (anchor pad stride ay') inW
            / ((kernel * kernel : ℕ) : ℚ))) acc (n, ax, ay, z)
      = if m = n ∧ ay' = ay ∧ z' = z then
          avgPoolWindowSum idim kernel n z (anchor pad stride ax) (anchor pad stride ay) inW
            / ((kernel * kernel : ℕ) : ℚ)
        else acc (n, ax, ay, z) := by
    intro m z' ay' acc
    by_cases hm : m = n ∧ ay' = ay ∧ z' = z
    · obtain ⟨h1, h2, h3⟩ := hm
      subst h1; subst h2; subst h3
      rw [if_pos ⟨rfl, rfl, rfl⟩]
      exact loop_upd_get (fun a => (m, a, ay', z')) _ odim.h ax hax
        (fun a _ _ h => by simp at h; omega) acc
    · rw [if_neg hm]
      refine loop_upd_frame (fun a => (m, a, ay', z')) _ odim.h (n, ax, ay, z) ?_ acc
      intro a _ h
      apply hm
      have h' : m = n ∧ a = ax ∧ ay' = ay ∧ z' = z := by
        simpa [Prod.ext_iff] using h
      exact ⟨h'.1, h'.2.2.1, h'.2.2.2⟩
  have hay_loop : ∀ m z', ∀ acc : T4,
      loop odim.w (fun b acc =>
        loop odim.h (fun a acc =>
          upd acc (m, a, b, z')
            (avgPoolWindowSum idim kernel m z' (anchor pad stride a) (anchor pad stride b) inW
              / ((kernel * kernel : ℕ) : ℚ))) acc) acc (n, ax, ay, z)
      = if m = n ∧ z' = z then
          avgPoolWindowSum idim kernel n z (anchor pad stride ax) (anchor pad stride ay) inW
            / ((kernel * kernel : ℕ) : ℚ)
        else acc (n, ax, ay, z) := by
    intro m z' acc
    by_cases hm : m = n ∧ z' = z
    · rw [if_pos hm]
      refine loop_obs_hit _ (fun acc : T4 => acc (n, ax, ay, z)) (fun _ => ())
        (fun _ => _) ay odim.w hay ?_ ?_ ?_ acc
      · intro b _ s; rfl
      · intro s
        exact (hax_loop m z' ay s).trans (if_pos ⟨hm.1, rfl, hm.2⟩)
      · intro b h1 h2 s
        exact (hax_loop m z' b s).trans (if_neg (fun hcon => by omega))
    · rw [if_neg hm]
      refine loop_obs_frame _ (fun acc : T4 => acc (n, ax, ay, z)) odim.w ?_ acc
      intro b _ s
      exact (hax_loop m z' b s).trans (if_neg (fun hcon => hm ⟨hcon.1, hcon.2.2⟩))
  have hz_loop : ∀ m, ∀ acc : T4,
      loop idim.c (fun z' acc =>
        loop odim.w (fun b acc =>
          loop odim.h (fun a acc =>
            upd acc (m, a, b, z')
              (avgPoolWindowSum idim kernel m z' (anchor pad stride a) (anchor pad stride b) inW
                / ((kernel * kernel : ℕ) : ℚ))) acc) acc) acc (n, ax, ay, z)
      = if m = n then
          avgPoolWindowSum idim kernel n z (anchor pad stride ax) (anchor pad stride ay) inW
            / ((kernel * kernel : ℕ) : ℚ)
        else acc (n, ax, ay, z) := by
    intro m acc
    by_cases hm : m = n
    · rw [if_pos hm]
      refine loop_obs_hit _ (fun acc : T4 => acc (n, ax, ay, z)) (fun _ => ())
        (fun _ => _) z idim.c hz ?_ ?_ ?_ acc
      · intro b _ s; rfl
      · intro s
        exact (hay_loop m z s).trans (if_pos ⟨hm, rfl⟩)
      · intro z' h1 h2 s
        exact (hay_loop m z' s).trans (if_neg (fun hcon => by omega))
    · rw [if_neg hm]
      refine loop_obs_frame _ (fun acc : T4 => acc (n, ax, ay, z)) idim.c ?_ acc
      intro z' _ s
      exact (hay_loop m z' s).trans (if_neg (fun hcon => hm hcon.1))
  have hn_loop :
      fwdPoolAvgInst odim idim kernel pad stride inW outW (n, ax, ay, z)
      = avgPoolWindowSum idim kernel n z (anchor pad stride ax) (anchor pad stride ay) inW
          / ((kernel * kernel : ℕ) : ℚ) := by
    rw [fwdPoolAvgInst]
    refine loop_obs_hit _ (fun acc : T4 => acc (n, ax, ay, z)) (fun _ => ())
      (fun _ => _) n odim.n hn ?_ ?_ ?_ outW
    · intro m _ s; rfl
    · intro s
      exact (hz_loop n s).trans (if_pos rfl)
    · intro m h1 h2 s
      exact (hz_loop m s).trans (if_neg (by omega))
  rw [hn_loop, avgPoolWindowSum_eq]

/-- Witness for C4, the spec's scenario (§8, item 9): K=2, S=1, P=1 on a 2×2
all-ones input (output sized 3×3): the top-left output element is `1/4` —
a single valid window entry, still divided by `K² = 4`. -/
theorem C4_avgpool_always_divides_by_k_squared_witness :
    (0 : ℕ) < 1 ∧ (0 : ℕ) < 3 ∧
    fwdPoolAvgInst ⟨1, 3, 3, 1⟩ ⟨1, 2, 2, 1⟩ 2 1 1 (fun _ => 1) (fun _ => 0) (0, 0, 0, 0)
      = 1/4 := by
  refine ⟨by norm_num, by norm_num, ?_⟩
  rw [C4_avgpool_always_divides_by_k_squared ⟨1, 3, 3, 1⟩ ⟨1, 2, 2, 1⟩ 2 1 1
    (fun _ => 1) (fun _ => 0) 0 0 0 0 (by norm_num) (by norm_num) (by norm_num) (by norm_num)]
  simp only [Finset.sum_range_succ, Finset.sum_range_zero, anchor, outOfRange]
  norm_num

/-! ## Max pooling -/

/-- One comparison step of the `fwdPoolMax_impl` window scan over the state
`(first, max, maxX, maxY)`: update on `first || (val >= max)`. -/
def poolMaxStep (inW : T4) (n z : ℕ) (st : Bool × ℚ × ℤ × ℤ) (pos : ℤ × ℤ) :
    Bool × ℚ × ℤ × ℤ :=
  let val := inW (n, pos.1.toNat, pos.2.toNat, z)
  if st.1 = true ∨ st.2.1 ≤ val then (false, val, pos.1, pos.2) else st

/-- The window scan of `Interpreter::fwdPoolMax_impl`: iterate `(fy, fx)` over
the K×K window, skip positions out of the INPUT range, and fold `poolMaxStep`
starting from `(first = true, max = 0, maxX = x, maxY = y)`. -/
def poolMaxScan (idim : ShapeNHWC) (kernel : ℕ) (n z : ℕ) (x y : ℤ) (inW : T4) :
    Bool × ℚ × ℤ × ℤ :=
  loop kernel (fun fy st =>
    loop kernel (fun fx st =>
      let ox : ℤ := x + fx
      let oy : ℤ := y + fy
      if outOfRange idim.h idim.w ox oy then st
      else poolMaxStep inW n z st (ox, oy)) st) (true, 0, x, y)

/-- The in-range window positions in the scan order of `fwdPoolMax_impl`
(`fy` outer, `fx` inner, out-of-range positions skipped). -/
def windowList (idim : ShapeNHWC) (kernel : ℕ) (x y : ℤ) : List (ℤ × ℤ) :=
  (List.range kernel).flatMap (fun fy : ℕ =>
    (List.range kernel).filterMap (fun fx : ℕ =>
      if outOfRange idim.h idim.w (x + fx) (y + fy) then none
      else some (x + fx, y + fy)))

theorem foldl_flatMap {α β γ : Type _} (f : α → List β) (step : γ → β → γ) (l : List α)
    (init : γ) :
    (l.flatMap f).foldl step init = l.foldl (fun st a => (f a).foldl step st) init := by
  induction l generalizing init with
  | nil => rfl
  | cons a t ih => rw [List.flatMap_cons, List.foldl_append, List.foldl_cons, ih]

theorem foldl_filterMapStep {α β γ : Type _} (f : α → Option β) (step : γ → β → γ)
    (l : List α) (init : γ) :
    (l.filterMap f).foldl step init
      = l.foldl (fun st a => (f a).elim st (step st)) init := by
  induction l generalizing init with
  | nil => rfl
  | cons a t ih =>
    rw [List.filterMap_cons]
    cases hfa : f a with
    | none =>
      show (List.filterMap f t).foldl step init
        = List.foldl (fun st a => (f a).elim st (step st)) ((f a).elim init (step init)) t
      rw [hfa]
      exact ih init
    | some b =>
      show (List.filterMap f t).foldl step (step init b)
        = List.foldl (fun st a => (f a).elim st (step st)) ((f a).elim init (step init)) t
      rw [hfa]
      exact ih (step init b)

/-- The nested window loops of `fwdPoolMax_impl` fold `poolMaxStep` over the
scan-ordered list of in-range window positions. -/
theorem poolMaxScan_eq_foldl (idim : ShapeNHWC) (kernel : ℕ) (n z : ℕ) (x y : ℤ)
    (inW : T4) :
    poolMaxScan idim kernel n z x y inW
      = (windowList idim kernel x y).foldl (poolMaxStep inW n z) (true, 0, x, y) := by
  rw [poolMaxScan, windowList, foldl_flatMap, loop]
  apply List.foldl_ext
  intro st fy _
  rw [foldl_filterMapStep
    (fun fx : ℕ => if outOfRange idim.h idim.w (x + fx) (y + fy) then none
      else some ((x + fx : ℤ), (y + fy : ℤ)))
    (poolMaxStep inW n z) (List.range kernel) st, loop]
  apply List.foldl_ext
  intro st' fx _
  by_cases hg : outOfRange idim.h idim.w (x + fx) (y + fy)
  · simp only [hg, if_true]
    rfl
  · simp only [hg, if_false, Bool.false_eq_true]
    rfl

/-- Folding `poolMaxStep` from a `first = true` state over a nonempty position
list yields the maximum value, recorded at the LAST-scanned position attaining
it: the list splits around the recorded position with everything after it
strictly below the maximum. -/
theorem poolMaxStep_foldl_spec (inW : T4) (n z : ℕ) (st0 : Bool × ℚ × ℤ × ℤ)
    (h0 : st0.1 = true) (L : List (ℤ × ℤ)) (hL : L ≠ []) :
    ∃ m px py L₁ L₂,
      L.foldl (poolMaxStep inW n z) st0 = (false, m, px, py)
      ∧ L = L₁ ++ (px, py) :: L₂
      ∧ inW (n, px.toNat, py.toNat, z) = m
      ∧ (∀ q ∈ L, inW (n, q.1.toNat, q.2.toNat, z) ≤ m)
      ∧ (∀ q ∈ L₂, inW (n, q.1.toNat, q.2.toNat, z) < m) := by
  induction L using List.reverseRecOn with
  | nil => exact absurd rfl hL
  | append_singleton t a ih =>
    rcases eq_or_ne t [] with rfl | ht
    · refine ⟨inW (n, a.1.toNat, a.2.toNat, z), a.1, a.2, [], [], ?_, by simp, rfl, ?_, by simp⟩
      · show poolMaxStep inW n z st0 a = _
        simp only [poolMaxStep]
        rw [if_pos (Or.inl h0)]
      · intro q hq
        simp only [List.nil_append, List.mem_singleton] at hq
        subst hq
        exact le_refl _
    · obtain ⟨m, px, py, L₁, L₂, hfold, hsplit, hval, hle, hlt⟩ := ih ht
      rw [List.foldl_append, List.foldl_cons, List.foldl_nil, hfold]
      by_cases hcmp : m ≤ inW (n, a.1.toNat, a.2.toNat, z)
      · refine ⟨inW (n, a.1.toNat, a.2.toNat, z), a.1, a.2, t, [], ?_, by simp, rfl, ?_, by simp⟩
        · show poolMaxStep inW n z (false, m, px, py) a = _
          simp only [poolMaxStep]
          rw [if_pos (Or.inr hcmp)]
        · intro q hq
          rcases List.mem_append.1 hq with hq | hq
          · exact le_trans (hle q hq) hcmp
          · rw [List.mem_singleton] at hq
            subst hq
            exact le_refl _
      · push_neg at hcmp
        refine ⟨m, px, py, L₁, L₂ ++ [a], ?_, ?_, hval, ?_, ?_⟩
        · show poolMaxStep inW n z (false, m, px, py) a = _
          simp only [poolMaxStep]
          rw [if_neg]
          simp only [not_or, Bool.false_eq_true, not_false_iff, true_and, not_le]
          exact hcmp
        · rw [hsplit, List.append_assoc, List.cons_append]
        · intro q hq
          rcases List.mem_append.1 hq with hq | hq
          · exact hle q hq
          · rw [List.mem_singleton] at hq
            subst hq
            exact le_of_lt hcmp
        · intro q hq
          rcases List.mem_append.1 hq with hq | hq
          · exact hlt q hq
          · rw [List.mem_singleton] at hq
            subst hq
            exact hcmp

/-- Every position in the scan window list is inside the input spatial range. -/
theorem windowList_mem_range (idim : ShapeNHWC) (kernel : ℕ) (x y : ℤ) (q : ℤ × ℤ)
    (hq : q ∈ windowList idim kernel x y) :
    0 ≤ q.1 ∧ 0 ≤ q.2 ∧ q.1 < (idim.h : ℤ) ∧ q.2 < (idim.w : ℤ) := by
  rw [windowList, List.mem_flatMap] at hq
  obtain ⟨fy, -, hq⟩ := hq
  rw [List.mem_filterMap] at hq
  obtain ⟨fx, -, hq⟩ := hq
  by_cases hg : outOfRange idim.h idim.w (x + fx) (y + fy)
  · rw [if_pos hg] at hq
    exact absurd hq (by simp)
  · rw [if_neg hg] at hq
    rw [Option.some_inj] at hq
    subst hq
    rw [outOfRange] at hg
    simp only [Bool.or_eq_true, decide_eq_true_eq, not_or] at hg
    exact ⟨by omega, by omega, by omega, by omega⟩

/-- The kernel `Interpreter::fwdPoolMax_impl`: for each output cell run the window scan,
then store the max coordinate into `SXY(n,ax,ay,z,{0,1})` (as `size_t`) and the
max value into `dest(n,ax,ay,z)`.  Returns `(dest, SXY)`. -/
def fwdPoolMaxInst (odim idim : ShapeNHWC) (kernel pad stride : ℕ) (inW : T4)
    (outW : T4) (SXY : T5n) : T4 × T5n :=
  loop odim.n (fun n st =>
    loop idim.c (fun z st =>
      loop odim.w (fun ay st =>
        loop odim.h (fun ax st =>
          let r := poolMaxScan idim kernel n z (anchor pad stride ax) (anchor pad stride ay) inW
          (upd st.1 (n, ax, ay, z) r.2.1,
           upd (upd st.2 (n, ax, ay, z, 0) r.2.2.1.toNat) (n, ax, ay, z, 1) r.2.2.2.toNat)) st)
        st) st) (outW, SXY)

/-- A loop over a pair state whose body acts componentwise splits into
a pair of loops. -/
theorem loop_prod {A B : Type _} (F : ℕ → A → A) (G : ℕ → B → B) :
    ∀ (n : ℕ) (p : A × B),
      loop n (fun i q => (F i q.1, G i q.2)) p = (loop n F p.1, loop n G p.2) := by
  intro n
  induction n with
  | zero => intro p; rfl
  | succ m ih =>
    intro p
    rw [loop_succ, ih p, loop_succ, loop_succ]

/-- The NHWC 4-level loop nest over a pair state with a componentwise body
splits into a pair of 4-level loop nests. -/
theorem loop4_prod {A B : Type _} (F : ℕ → ℕ → ℕ → ℕ → A → A) (G : ℕ → ℕ → ℕ → ℕ → B → B)
    (N C W H : ℕ) (p : A × B) :
    loop N (fun n st => loop C (fun z st => loop W (fun ay st =>
        loop H (fun ax st => (F n z ay ax st.1, G n z ay ax st.2)) st) st) st) p
      = (loop N (fun n a => loop C (fun z a => loop W (fun ay a =>
          loop H (fun ax a => F n z ay ax a) a) a) a) p.1,
         loop N (fun n b => loop C (fun z b => loop W (fun ay b =>
          loop H (fun ax b => G n z ay ax b) b) b) b) p.2) := by
  have hW : ∀ n z (st : A × B),
      loop W (fun ay st => loop H (fun ax st => (F n z ay ax st.1, G n z ay ax st.2)) st) st
        = (loop W (fun ay a => loop H (fun ax a => F n z ay ax a) a) st.1,
           loop W (fun ay b => loop H (fun ax b => G n z ay ax b) b) st.2) := by
    intro n z st
    have hb : (fun ay (st : A × B) =>
        loop H (fun ax st => (F n z ay ax st.1, G n z ay ax st.2)) st)
        = fun ay st => ((fun ay a => loop H (fun ax a => F n z ay ax a) a) ay st.1,
                        (fun ay b => loop H (fun ax b => G n z ay ax b) b) ay st.2) := by
      funext ay st
      exact loop_prod (fun ax a => F n z ay ax a) (fun ax b => G n z ay ax b) H st
    rw [hb]
    exact loop_prod _ _ W st
  have hC : ∀ n (st : A × B),
      loop C (fun z st => loop W (fun ay st =>
          loop H (fun ax st => (F n z ay ax st.1, G n z ay ax st.2)) st) st) st
        = (loop C (fun z a => loop W (fun ay a => loop H (fun ax a => F n z ay ax a) a) a) st.1,
           loop C (fun z b => loop W (fun ay b => loop H (fun ax b => G n z ay ax b) b) b) st.2) := by
    intro n st
    have hb : (fun z (st : A × B) => loop W (fun ay st =>
        loop H (fun ax st => (F n z ay ax st.1, G n z ay ax st.2)) st) st)
        = fun z st => ((fun z a => loop W (fun ay a => loop H (fun ax a => F n z ay ax a) a) a) z st.1,
                       (fun z b => loop W (fun ay b => loop H (fun ax b => G n z ay ax b) b) b) z st.2) := by
      funext z st
      exact hW n z st
    rw [hb]
    exact loop_prod _ _ C st
  have hb : (fun n (st : A × B) => loop C (fun z st => loop W (fun ay st =>
      loop H (fun ax st => (F n z ay ax st.1, G n z ay ax st.2)) st) st) st)
      = fun n st => ((fun n a => loop C (fun z a => loop W (fun ay a =>
          loop H (fun ax a => F n z ay ax a) a) a) a) n st.1,
        (fun n b => loop C (fun z b => loop W (fun ay b =>
          loop H (fun ax b => G n z ay ax b) b) b) b) n st.2) := by
    funext n st
    exact hC n st
  rw [hb]
  exact loop_prod _ _ N p

/-- Evaluation of an NHWC 4-level loop nest at one iteration `(n, z, ay, ax)`:
if that iteration sets an observation to `V` and every other iteration
preserves it, the nest's final observation is `V`. -/
theorem loop4_eval {S β : Type _} (BODY : ℕ → ℕ → ℕ → ℕ → S → S) (obs : S → β)
    (N C W H : ℕ) (n z ay ax : ℕ) (hn : n < N) (hz : z < C) (hay : ay < W) (hax : ax < H)
    (V : β)
    (hhit : ∀ s, obs (BODY n z ay ax s) = V)
    (hframe : ∀ n' z' ay' ax' s, ¬(n' = n ∧ z' = z ∧ ay' = ay ∧ ax' = ax) →
      obs (BODY n' z' ay' ax' s) = obs s)
    (g : S) :
    obs (loop N (fun n s => loop C (fun z s => loop W (fun ay s =>
      loop H (fun ax s => BODY n z ay ax s) s) s) s) g) = V := by
  have lH : ∀ n' z' ay' (s : S),
      obs (loop H (fun ax' s => BODY n' z' ay' ax' s) s)
        = if n' = n ∧ z' = z ∧ ay' = ay then V else obs s := by
    intro n' z' ay' s
    by_cases hm : n' = n ∧ z' = z ∧ ay' = ay
    · rw [if_pos hm]
      obtain ⟨e1, e2, e3⟩ := hm
      subst e1; subst e2; subst e3
      refine loop_obs_hit _ obs (fun _ => ()) (fun _ => V) ax H hax ?_ ?_ ?_ s
      · intro i _ t; rfl
      · intro t; exact hhit t
      · intro i h1 h2 t
        exact hframe n' z' ay' i t (fun hco => by omega)
    · rw [if_neg hm]
      refine loop_obs_frame _ obs H ?_ s
      intro i _ t
      exact hframe n' z' ay' i t (fun hco => hm ⟨hco.1, hco.2.1, hco.2.2.1⟩)
  have lW : ∀ n' z' (s : S),
      obs (loop W (fun ay' s => loop H (fun ax' s => BODY n' z' ay' ax' s) s) s)
        = if n' = n ∧ z' = z then V else obs s := by
    intro n' z' s
    by_cases hm : n' = n ∧ z' = z
    · rw [if_pos hm]
      refine loop_obs_hit _ obs (fun _ => ()) (fun _ => V) ay W hay ?_ ?_ ?_ s
      · intro i _ t; rfl
      · intro t; exact (lH n' z' ay t).trans (if_pos ⟨hm.1, hm.2, rfl⟩)
      · intro i h1 h2 t
        exact (lH n' z' i t).trans (if_neg (fun hco => by omega))
    · rw [if_neg hm]
      refine loop_obs_frame _ obs W ?_ s
      intro i _ t
      exact (lH n' z' i t).trans (if_neg (fun hco => hm ⟨hco.1, hco.2.1⟩))
  have lC : ∀ n' (s : S),
      obs (loop C (fun z' s => loop W (fun ay' s =>
          loop H (fun ax' s => BODY n' z' ay' ax' s) s) s) s)
        = if n' = n then V else obs s := by
    intro n' s
    by_cases hm : n' = n
    · rw [if_pos hm]
      refine loop_obs_hit _ obs (fun _ => ()) (fun _ => V) z C hz ?_ ?_ ?_ s
      · intro i _ t; rfl
      · intro t; exact (lW n' z t).trans (if_pos ⟨hm, rfl⟩)
      · intro i h1 h2 t
        exact (lW n' i t).trans (if_neg (fun hco => by omega))
    · rw [if_neg hm]
      refine loop_obs_frame _ obs C ?_ s
      intro i _ t
      exact (lW n' i t).trans (if_neg (fun hco => hm hco.1))
  refine loop_obs_hit _ obs (fun _ => ()) (fun _ => V) n N hn ?_ ?_ ?_ g
  · intro i _ t; rfl
  · intro t; exact (lC n t).trans (if_pos rfl)
  · intro i h1 h2 t
    exact (lC i t).trans (if_neg (by omega))

/-- C5: for every in-range output cell whose scan window contains at least one
valid position, the MaxPool forward writes the maximum `src` value over the
window to `dest(n,ax,ay,z)` and the coordinate of the LAST-scanned position
attaining that maximum to `SXY(n,ax,ay,z,{0,1})`: the window list splits as
`L₁ ++ (px, py) :: L₂` where `(px, py)` attains the maximum `m` and every
position scanned after it is strictly below `m`. -/
theorem C5_maxpool_max_and_last_argmax (odim idim : ShapeNHWC) (kernel pad stride : ℕ)
    (inW : T4) (outW : T4) (SXY : T5n) (n z ay ax : ℕ)
    (hn : n < odim.n) (hz : z < idim.c) (hay : ay < odim.w) (hax : ax < odim.h)
    (hwin : windowList idim kernel (anchor pad stride ax) (anchor pad stride ay) ≠ []) :
    ∃ m px py L₁ L₂,
      (fwdPoolMaxInst odim idim kernel pad stride inW outW SXY).1 (n, ax, ay, z) = m
      ∧ (fwdPoolMaxInst odim idim kernel pad stride inW outW SXY).2 (n, ax, ay, z, 0) = px.toNat
      ∧ (fwdPoolMaxInst odim idim kernel pad stride inW outW SXY).2 (n, ax, ay, z, 1) = py.toNat
      ∧ 0 ≤ px ∧ 0 ≤ py
      ∧ windowList idim kernel (anchor pad stride ax) (anchor pad stride ay)
          = L₁ ++ (px, py) :: L₂
      ∧ inW (n, px.toNat, py.toNat, z) = m
      ∧ (∀ q ∈ windowList idim kernel (anchor pad stride ax) (anchor pad stride ay),
          inW (n, q.1.toNat, q.2.toNat, z) ≤ m)
      ∧ (∀ q ∈ L₂, inW (n, q.1.toNat, q.2.toNat, z) < m) := by
  obtain ⟨m, px, py, L₁, L₂, hfold, hsplit, hval, hle, hlt⟩ :=
    poolMaxStep_foldl_spec inW n z
      (true, 0, anchor pad stride ax, anchor pad stride ay) rfl
      (windowList idim kernel (anchor pad stride ax) (anchor pad stride ay)) hwin
  have hscan : poolMaxScan idim kernel n z (anchor pad stride ax) (anchor pad stride ay) inW
      = (false, m, px, py) :=
    (poolMaxScan_eq_foldl idim kernel n z (anchor pad stride ax) (anchor pad stride ay) inW).trans
      hfold
  have hmem : ((px, py) : ℤ × ℤ) ∈ windowList idim kernel (anchor pad stride ax)
      (anchor pad stride ay) := by
    rw [hsplit]
    exact List.mem_append.2 (Or.inr (List.mem_cons_self _ _))
  obtain ⟨hpx, hpy, -, -⟩ := windowList_mem_range idim kernel _ _ (px, py) hmem
  have hker : fwdPoolMaxInst odim idim kernel pad stride inW outW SXY
      = (loop odim.n (fun n a => loop idim.c (fun z a => loop odim.w (fun ay a =>
          loop odim.h (fun ax a =>
            upd a (n, ax, ay, z)
              (poolMaxScan idim kernel n z (anchor pad stride ax) (anchor pad stride ay)
                inW).2.1) a) a) a) outW,
         loop odim.n (fun n b => loop idim.c (fun z b => loop odim.w (fun ay b =>
          loop odim.h (fun ax b =>
            upd (upd b (n, ax, ay, z, 0)
                (poolMaxScan idim kernel n z (anchor pad stride ax) (anchor pad stride ay)
                  inW).2.2.1.toNat)
              (n, ax, ay, z, 1)
              (poolMaxScan idim kernel n z (anchor pad stride ax) (anchor pad stride ay)
                inW).2.2.2.toNat) b) b) b) SXY) :=
    loop4_prod (fun n z ay ax a =>
        upd a (n, ax, ay, z)
          (poolMaxScan idim kernel n z (anchor pad stride ax) (anchor pad stride ay) inW).2.1)
      (fun n z ay ax b =>
        upd (upd b (n, ax, ay, z, 0)
            (poolMaxScan idim kernel n z (anchor pad stride ax) (anchor pad stride ay)
              inW).2.2.1.toNat)
          (n, ax, ay, z, 1)
          (poolMaxScan idim kernel n z (anchor pad stride ax) (anchor pad stride ay)
            inW).2.2.2.toNat)
      odim.n idim.c odim.w odim.h (outW, SXY)
  refine ⟨m, px, py, L₁, L₂, ?_, ?_, ?_, hpx, hpy, hsplit, hval, hle, hlt⟩
  · rw [hker]
    refine loop4_eval _ (fun a : T4 => a (n, ax, ay, z)) odim.n idim.c odim.w odim.h
      n z ay ax hn hz hay hax m ?_ ?_ outW
    · intro s
      show upd s (n, ax, ay, z) _ (n, ax, ay, z) = m
      rw [upd, if_pos rfl, hscan]
    · intro n' z' ay' ax' s hco
      show upd s (n', ax', ay', z') _ (n, ax, ay, z) = s (n, ax, ay, z)
      rw [upd, if_neg (fun h => hco (by simp [Prod.ext_iff] at h; omega))]
  · rw [hker]
    refine loop4_eval _ (fun b : T5n => b (n, ax, ay, z, 0)) odim.n idim.c odim.w odim.h
      n z ay ax hn hz hay hax px.toNat ?_ ?_ SXY
    · intro s
      show upd (upd s (n, ax, ay, z, 0) _) (n, ax, ay, z, 1) _ (n, ax, ay, z, 0) = px.toNat
      rw [upd, if_neg (by simp), upd, if_pos rfl, hscan]
    · intro n' z' ay' ax' s hco
      show upd (upd s (n', ax', ay', z', 0) _) (n', ax', ay', z', 1) _ (n, ax, ay, z, 0)
        = s (n, ax, ay, z, 0)
      rw [upd, if_neg (by simp), upd,
        if_neg (fun h => hco (by simp [Prod.ext_iff] at h; omega))]
  · rw [hker]
    refine loop4_eval _ (fun b : T5n => b (n, ax, ay, z, 1)) odim.n idim.c odim.w odim.h
      n z ay ax hn hz hay hax py.toNat ?_ ?_ SXY
    · intro s
      show upd (upd s (n, ax, ay, z, 0) _) (n, ax, ay, z, 1) _ (n, ax, ay, z, 1) = py.toNat
      rw [upd, if_pos rfl, hscan]
    · intro n' z' ay' ax' s hco
      show upd (upd s (n', ax', ay', z', 0) _) (n', ax', ay', z', 1) _ (n, ax, ay, z, 1)
        = s (n, ax, ay, z, 1)
      rw [upd, if_neg (fun h => hco (by simp [Prod.ext_iff] at h; omega)), upd,
        if_neg (by simp)]

/-- Witness for C5, the spec's scenario S2: input `(1,2,2,1) = [[1,3],[2,4]]`,
K=2, S=1, P=0: the theorem applies (the window is nonempty), and evaluating the
kernel gives `dest = [[4]]` with saved coordinates `SXY = (1, 1)`. -/
theorem C5_maxpool_max_and_last_argmax_witness :
    ((0 : ℕ) < 1
      ∧ windowList ⟨1, 2, 2, 1⟩ 2 (anchor 0 1 0) (anchor 0 1 0) ≠ []
      ∧ (fwdPoolMaxInst ⟨1, 1, 1, 1⟩ ⟨1, 2, 2, 1⟩ 2 0 1
          (fun q => if q.2.1 = 0 then (if q.2.2.1 = 0 then 1 else 3)
            else (if q.2.2.1 = 0 then 2 else 4))
          (fun _ => 0) (fun _ => 0)).1 (0, 0, 0, 0) = 4
      ∧ (fwdPoolMaxInst ⟨1, 1, 1, 1⟩ ⟨1, 2, 2, 1⟩ 2 0 1
          (fun q => if q.2.1 = 0 then (if q.2.2.1 = 0 then 1 else 3)
            else (if q.2.2.1 = 0 then 2 else 4))
          (fun _ => 0) (fun _ => 0)).2 (0, 0, 0, 0, 0) = 1
      ∧ (fwdPoolMaxInst ⟨1, 1, 1, 1⟩ ⟨1, 2, 2, 1⟩ 2 0 1
          (fun q => if q.2.1 = 0 then (if q.2.2.1 = 0 then 1 else 3)
            else (if q.2.2.1 = 0 then 2 else 4))
          (fun _ => 0) (fun _ => 0)).2 (0, 0, 0, 0, 1) = 1)
    ∧ (∃ m px py L₁ L₂,
        (fwdPoolMaxInst ⟨1, 1, 1, 1⟩ ⟨1, 2, 2, 1⟩ 2 0 1
            (fun q => if q.2.1 = 0 then (if q.2.2.1 = 0 then 1 else 3)
              else (if q.2.2.1 = 0 then 2 else 4))
            (fun _ => 0) (fun _ => 0)).1 (0, 0, 0, 0) = m
        ∧ (fwdPoolMaxInst ⟨1, 1, 1, 1⟩ ⟨1, 2, 2, 1⟩ 2 0 1
            (fun q => if q.2.1 = 0 then (if q.2.2.1 = 0 then 1 else 3)
              else (if q.2.2.1 = 0 then 2 else 4))
            (fun _ => 0) (fun _ => 0)).2 (0, 0, 0, 0, 0) = px.toNat
        ∧ (fwdPoolMaxInst ⟨1, 1, 1, 1⟩ ⟨1, 2, 2, 1⟩ 2 0 1
            (fun q => if q.2.1 = 0 then (if q.2.2.1 = 0 then 1 else 3)
              else (if q.2.2.1 = 0 then 2 else 4))
            (fun _ => 0) (fun _ => 0)).2 (0, 0, 0, 0, 1) = py.toNat
        ∧ 0 ≤ px ∧ 0 ≤ py
        ∧ windowList ⟨1, 2, 2, 1⟩ 2 (anchor 0 1 0) (anchor 0 1 0) = L₁ ++ (px, py) :: L₂
        ∧ (fun q : ℕ × ℕ × ℕ × ℕ => if q.2.1 = 0 then (if q.2.2.1 = 0 then (1 : ℚ) else 3)
              else (if q.2.2.1 = 0 then 2 else 4)) (0, px.toNat, py.toNat, 0) = m
        ∧ (∀ q ∈ windowList ⟨1, 2, 2, 1⟩ 2 (anchor 0 1 0) (anchor 0 1 0),
            (fun q : ℕ × ℕ × ℕ × ℕ => if q.2.1 = 0 then (if q.2.2.1 = 0 then (1 : ℚ) else 3)
              else (if q.2.2.1 = 0 then 2 else 4)) (0, q.1.toNat, q.2.toNat, 0) ≤ m)
        ∧ (∀ q ∈ L₂,
            (fun q : ℕ × ℕ × ℕ × ℕ => if q.2.1 = 0 then (if q.2.2.1 = 0 then (1 : ℚ) else 3)
              else (if q.2.2.1 = 0 then 2 else 4)) (0, q.1.toNat, q.2.toNat, 0) < m)) := by
  constructor
  · refine ⟨by norm_num, by simp only [windowList, anchor]; decide, ?_, ?_, ?_⟩ <;>
    · simp only [fwdPoolMaxInst, poolMaxScan, poolMaxStep, loop_succ, loop_zero, upd,
        anchor, outOfRange]
      norm_num
  · exact C5_maxpool_max_and_last_argmax ⟨1, 1, 1, 1⟩ ⟨1, 2, 2, 1⟩ 2 0 1 _ _ _ 0 0 0 0
      (by norm_num) (by norm_num) (by norm_num) (by norm_num)
      (by simp only [windowList, anchor]; decide)

/-! ## Batch normalization

The `getDimForPtr(channelIdx, i)` coordinate lookup of the Tensor handle
library (which is not under src) is modelled from the spec: elements are
stored row-major and `chanOf i` is the channel coordinate of flat index `i`;
the map is abstracted as a function parameter.  `std::sqrt` is the function
parameter `sqrtF`. -/

/-- The kernel `Interpreter::fwdBatchNormalizationInst_infer`:
`out[i] = (x - mu) * gamma * stdvar + beta` with `stdvar = 1/sqrt(var + eps)`,
all per-channel quantities read at channel `chanOf i`. -/
def fwdBatchNormalizationInst_infer (size : ℕ) (chanOf : ℕ → ℕ) (epsilon : ℚ)
    (sqrtF : ℚ → ℚ) (inW : T1) (meanH varH gammaWH betaWH : T1) (outW : T1) : T1 :=
  loop size (fun i o =>
    let x := inW i
    let mu := meanH (chanOf i)
    let varv := varH (chanOf i)
    let stdvar := 1 / sqrtF (varv + epsilon)
    let gamma := gammaWH (chanOf i)
    let beta := betaWH (chanOf i)
    upd o i ((x - mu) * gamma * stdvar + beta)) outW

/-- The local-mean computation of `fwdBatchNormalizationInst_train`: accumulate
`src` per channel into a zero-initialised scratch tensor (modelled from the
spec: freshly allocated tensors start at zero), then divide each channel by
`samplesPerChannel = size / numChannels`. -/
def bnLocalMeanT (size numChannels : ℕ) (chanOf : ℕ → ℕ) (inW : T1) : T1 :=
  let samplesPerChannel : ℕ := size / numChannels
  let acc := loop size (fun i lm => updAdd lm (chanOf i) (inW i)) (fun _ => 0)
  loop numChannels (fun c lm => upd lm c (lm c / (samplesPerChannel : ℚ))) acc

/-- The local-variance computation of `fwdBatchNormalizationInst_train`:
accumulate `(x - localMean[channel])²` per channel, then divide by
`samplesPerChannel` (the division loop runs over `localMeanH.size()` as in the
source, i.e. `numChannels`). -/
def bnLocalVarT (size numChannels : ℕ) (chanOf : ℕ → ℕ) (inW : T1) (lm : T1) : T1 :=
  let samplesPerChannel : ℕ := size / numChannels
  let acc := loop size (fun i lv =>
    let v := inW i - lm (chanOf i)
    updAdd lv (chanOf i) (v * v)) (fun _ => 0)
  loop numChannels (fun c lv => upd lv c (lv c / (samplesPerChannel : ℚ))) acc

/-- The running-statistics update of `fwdBatchNormalizationInst_train`:
`mean[c] = P·localMean[c] + (1-P)·mean[c]` and likewise `var`, in one loop. -/
def bnMomentumUpdate (numChannels : ℕ) (momentum : ℚ) (lm lv meanH varH : T1) : T1 × T1 :=
  loop numChannels (fun c p =>
    (upd p.1 c (momentum * lm c + (1 - momentum) * p.1 c),
     upd p.2 c (momentum * lv c + (1 - momentum) * p.2 c))) (meanH, varH)

/-- The kernel `Interpreter::fwdBatchNormalizationInst_train`: compute local statistics,
blend them into the running statistics, then re-enter the inference forward
with the updated running statistics.  Returns `(out, mean, var)`. -/
def fwdBatchNormalizationInst_train (size numChannels : ℕ) (chanOf : ℕ → ℕ)
    (momentum epsilon : ℚ) (sqrtF : ℚ → ℚ)
    (inW meanH varH gammaWH betaWH outW : T1) : T1 × T1 × T1 :=
  let lm := bnLocalMeanT size numChannels chanOf inW
  let lv := bnLocalVarT size numChannels chanOf inW lm
  let mv := bnMomentumUpdate numChannels momentum lm lv meanH varH
  (fwdBatchNormalizationInst_infer size chanOf epsilon sqrtF inW mv.1 mv.2 gammaWH betaWH outW,
   mv.1, mv.2)

/-- The per-channel local mean as a closed formula:
`(Σ over flat indices of channel c of src) / (size / numChannels)`. -/
def bnLocalMean (size numChannels : ℕ) (chanOf : ℕ → ℕ) (inW : T1) (c : ℕ) : ℚ :=
  (∑ i ∈ Finset.range size, if chanOf i = c then inW i else 0)
    / ((size / numChannels : ℕ) : ℚ)

/-- The per-channel local variance as a closed formula:
`(Σ over flat indices of channel c of (src - localMean[c])²) / (size / numChannels)`. -/
def bnLocalVar (size numChannels : ℕ) (chanOf : ℕ → ℕ) (inW : T1) (c : ℕ) : ℚ :=
  (∑ i ∈ Finset.range size,
      if chanOf i = c then
        (inW i - bnLocalMean size numChannels chanOf inW c)
          * (inW i - bnLocalMean size numChannels chanOf inW c)
      else 0)
    / ((size / numChannels : ℕ) : ℚ)

/-- The divide-each-channel loop evaluated at an in-range channel. -/
theorem loop_div_each (d : ℚ) (nC c : ℕ) (hc : c < nC) (f : T1) :
    loop nC (fun j g => upd g j (g j / d)) f c = f c / d := by
  refine loop_obs_hit _ (fun g : T1 => g c) (fun g : T1 => g c) (fun a => a / d)
    c nC hc ?_ ?_ ?_ f
  · intro j hj s
    show upd s j (s j / d) c = s c
    rw [upd, if_neg (by omega)]
  · intro s
    show upd s c (s c / d) c = s c / d
    rw [upd, if_pos rfl]
  · intro j h1 h2 s
    show upd s j (s j / d) c = s c
    rw [upd, if_neg (by omega)]

/-- The channel-accumulation loop computes per-channel sums. -/
theorem loop_chan_accum (size : ℕ) (chanOf : ℕ → ℕ) (v : ℕ → ℚ) (c : ℕ) :
    loop size (fun i g => updAdd g (chanOf i) (v i)) (fun _ => 0) c
      = ∑ i ∈ Finset.range size, (if chanOf i = c then v i else 0) := by
  have hAdd : AddBy (loop size (fun i g => updAdd g (chanOf i) (v i)))
      (fun a => ∑ i ∈ Finset.range size, (if a = chanOf i then v i else 0)) :=
    addBy_loop size (fun i _ => addBy_updAdd (chanOf i) (v i))
  have h1 : loop size (fun i g => updAdd g (chanOf i) (v i)) (fun _ => 0) c
      = 0 + ∑ i ∈ Finset.range size, (if c = chanOf i then v i else 0) :=
    hAdd (fun _ => 0) c
  rw [h1, zero_add]
  exact Finset.sum_congr rfl (fun i _ => if_congr eq_comm rfl rfl)

theorem bnLocalMeanT_apply (size numChannels : ℕ) (chanOf : ℕ → ℕ) (inW : T1)
    (c : ℕ) (hc : c < numChannels) :
    bnLocalMeanT size numChannels chanOf inW c = bnLocalMean size numChannels chanOf inW c := by
  show loop numChannels _ (loop size (fun i lm => updAdd lm (chanOf i) (inW i)) (fun _ => 0)) c
    = bnLocalMean size numChannels chanOf inW c
  rw [loop_div_each _ numChannels c hc, loop_chan_accum, bnLocalMean]

theorem bnLocalVarT_apply (size numChannels : ℕ) (chanOf : ℕ → ℕ) (inW : T1) (lm : T1)
    (c : ℕ) (hc : c < numChannels) :
    bnLocalVarT size numChannels chanOf inW lm c
      = (∑ i ∈ Finset.range size,
          if chanOf i = c then (inW i - lm c) * (inW i - lm c) else 0)
        / ((size / numChannels : ℕ) : ℚ) := by
  show loop numChannels _
      (loop size (fun i lv => updAdd lv (chanOf i)
        ((inW i - lm (chanOf i)) * (inW i - lm (chanOf i)))) (fun _ => 0)) c
    = _
  rw [loop_div_each _ numChannels c hc, loop_chan_accum]
  congr 1
  refine Finset.sum_congr rfl (fun i _ => ?_)
  by_cases h : chanOf i = c
  · rw [if_pos h, if_pos h, h]
  · rw [if_neg h, if_neg h]

theorem bnMomentumUpdate_apply (numChannels : ℕ) (momentum : ℚ) (lm lv meanH varH : T1)
    (c : ℕ) (hc : c < numChannels) :
    (bnMomentumUpdate numChannels momentum lm lv meanH varH).1 c
        = momentum * lm c + (1 - momentum) * meanH c
    ∧ (bnMomentumUpdate numChannels momentum lm lv meanH varH).2 c
        = momentum * lv c + (1 - momentum) * varH c := by
  constructor
  · refine loop_obs_hit _ (fun p : T1 × T1 => p.1 c) (fun p : T1 × T1 => p.1 c)
      (fun a => momentum * lm c + (1 - momentum) * a) c numChannels hc ?_ ?_ ?_ (meanH, varH)
    · intro j hj s
      show upd s.1 j _ c = s.1 c
      rw [upd, if_neg (by omega)]
    · intro s
      show upd s.1 c _ c = _
      rw [upd, if_pos rfl]
    · intro j h1 h2 s
      show upd s.1 j _ c = s.1 c
      rw [upd, if_neg (by omega)]
  · refine loop_obs_hit _ (fun p : T1 × T1 => p.2 c) (fun p : T1 × T1 => p.2 c)
      (fun a => momentum * lv c + (1 - momentum) * a) c numChannels hc ?_ ?_ ?_ (meanH, varH)
    · intro j hj s
      show upd s.2 j _ c = s.2 c
      rw [upd, if_neg (by omega)]
    · intro s
      show upd s.2 c _ c = _
      rw [upd, if_pos rfl]
    · intro j h1 h2 s
      show upd s.2 j _ c = s.2 c
      rw [upd, if_neg (by omega)]

theorem fwdBatchNormalizationInst_infer_apply (size : ℕ) (chanOf : ℕ → ℕ) (epsilon : ℚ)
    (sqrtF : ℚ → ℚ) (inW meanH varH gammaWH betaWH outW : T1) (i : ℕ) (hi : i < size) :
    fwdBatchNormalizationInst_infer size chanOf epsilon sqrtF inW meanH varH gammaWH betaWH
        outW i
      = (inW i - meanH (chanOf i)) * gammaWH (chanOf i)
          * (1 / sqrtF (varH (chanOf i) + epsilon)) + betaWH (chanOf i) := by
  rw [fwdBatchNormalizationInst_infer]
  exact loop_upd_get (fun j => j)
    (fun j => (inW j - meanH (chanOf j)) * gammaWH (chanOf j)
      * (1 / sqrtF (varH (chanOf j) + epsilon)) + betaWH (chanOf j))
    size i hi (fun j h1 _ => by simp; omega) outW

/-- C3: the BatchNormalization training forward computes the per-channel local
mean and variance of `src`, blends them into the running statistics with the
polarity `mean[c] = P·localMean[c] + (1-P)·mean[c]` (likewise `var`), and then
produces its output by the inference formula applied with the just-updated
RUNNING statistics — the returned `mean`/`var` themselves — not the local batch
statistics. -/
theorem C3_batchnorm_train_momentum_and_running_stats (size numChannels : ℕ)
    (chanOf : ℕ → ℕ) (momentum epsilon : ℚ) (sqrtF : ℚ → ℚ)
    (inW meanH varH gammaWH betaWH outW : T1) :
    (∀ c < numChannels,
      (fwdBatchNormalizationInst_train size numChannels chanOf momentum epsilon sqrtF
          inW meanH varH gammaWH betaWH outW).2.1 c
        = momentum * bnLocalMean size numChannels chanOf inW c + (1 - momentum) * meanH c)
    ∧ (∀ c < numChannels,
      (fwdBatchNormalizationInst_train size numChannels chanOf momentum epsilon sqrtF
          inW meanH varH gammaWH betaWH outW).2.2 c
        = momentum * bnLocalVar size numChannels chanOf inW c + (1 - momentum) * varH c)
    ∧ (∀ i < size,
      (fwdBatchNormalizationInst_train size numChannels chanOf momentum epsilon sqrtF
          inW meanH varH gammaWH betaWH outW).1 i
        = (inW i
            - (fwdBatchNormalizationInst_train size numChannels chanOf momentum epsilon sqrtF
                inW meanH varH gammaWH betaWH outW).2.1 (chanOf i))
          * gammaWH (chanOf i)
          * (1 / sqrtF ((fwdBatchNormalizationInst_train size numChannels chanOf momentum
                epsilon sqrtF inW meanH varH gammaWH betaWH outW).2.2 (chanOf i) + epsilon))
          + betaWH (chanOf i)) := by
  have hlv : ∀ c, c < numChannels →
      bnLocalVarT size numChannels chanOf inW (bnLocalMeanT size numChannels chanOf inW) c
        = bnLocalVar size numChannels chanOf inW c := by
    intro c hc
    rw [bnLocalVarT_apply size numChannels chanOf inW _ c hc, bnLocalVar]
    congr 1
    refine Finset.sum_congr rfl (fun i _ => ?_)
    by_cases h : chanOf i = c
    · rw [if_pos h, if_pos h, bnLocalMeanT_apply size numChannels chanOf inW c hc]
    · rw [if_neg h, if_neg h]
  refine ⟨?_, ?_, ?_⟩
  · intro c hc
    show (bnMomentumUpdate numChannels momentum (bnLocalMeanT size numChannels chanOf inW)
        (bnLocalVarT size numChannels chanOf inW (bnLocalMeanT size numChannels chanOf inW))
        meanH varH).1 c = _
    rw [(bnMomentumUpdate_apply numChannels momentum _ _ meanH varH c hc).1,
      bnLocalMeanT_apply size numChannels chanOf inW c hc]
  · intro c hc
    show (bnMomentumUpdate numChannels momentum (bnLocalMeanT size numChannels chanOf inW)
        (bnLocalVarT size numChannels chanOf inW (bnLocalMeanT size numChannels chanOf inW))
        meanH varH).2 c = _
    rw [(bnMomentumUpdate_apply numChannels momentum _ _ meanH varH c hc).2, hlv c hc]
  · intro i hi
    show fwdBatchNormalizationInst_infer size chanOf epsilon sqrtF inW _ _ gammaWH betaWH
        outW i = _
    rw [fwdBatchNormalizationInst_infer_apply size chanOf epsilon sqrtF inW _ _ gammaWH
      betaWH outW i hi]
    rfl

/-- Witness for C3 at a concrete instance: `size = 2`, one channel,
`src = [1, 3]`, momentum `1/2`, `ε = 0`, running stats initially zero,
`γ = 6`, `β = 5`, and a sqrt model with `sqrtF = 3` everywhere: the local mean
is 2 and local variance 1, so the updated running mean is 1 and running
variance is `1/2`, and the output at index 0 is `(1 - 1)·6·(1/3) + 5 = 5` —
computed from the updated RUNNING statistics. -/
theorem C3_batchnorm_train_momentum_and_running_stats_witness :
    ((0 : ℕ) < 1 ∧ (0 : ℕ) < 2)
    ∧ (fwdBatchNormalizationInst_train 2 1 (fun _ => 0) (1/2) 0 (fun _ => 3)
        (fun i => if i = 0 then 1 else 3) (fun _ => 0) (fun _ => 0) (fun _ => 6)
        (fun _ => 5) (fun _ => 0)).2.1 0 = 1
    ∧ (fwdBatchNormalizationInst_train 2 1 (fun _ => 0) (1/2) 0 (fun _ => 3)
        (fun i => if i = 0 then 1 else 3) (fun _ => 0) (fun _ => 0) (fun _ => 6)
        (fun _ => 5) (fun _ => 0)).2.2 0 = 1/2
    ∧ (fwdBatchNormalizationInst_train 2 1 (fun _ => 0) (1/2) 0 (fun _ => 3)
        (fun i => if i = 0 then 1 else 3) (fun _ => 0) (fun _ => 0) (fun _ => 6)
        (fun _ => 5) (fun _ => 0)).1 0 = 5 := by
  obtain ⟨h1, h2, h3⟩ := C3_batchnorm_train_momentum_and_running_stats 2 1 (fun _ => 0)
    (1/2) 0 (fun _ => 3) (fun i => if i = 0 then 1 else 3) (fun _ => 0) (fun _ => 0)
    (fun _ => 6) (fun _ => 5) (fun _ => 0)
  have hm : (fwdBatchNormalizationInst_train 2 1 (fun _ => 0) (1/2) 0 (fun _ => 3)
      (fun i => if i = 0 then 1 else 3) (fun _ => 0) (fun _ => 0) (fun _ => 6)
      (fun _ => 5) (fun _ => 0)).2.1 0 = 1 := by
    rw [h1 0 Nat.zero_lt_one]
    simp only [bnLocalMean, Finset.sum_range_succ, Finset.sum_range_zero]
    norm_num
  have hv : (fwdBatchNormalizationInst_train 2 1 (fun _ => 0) (1/2) 0 (fun _ => 3)
      (fun i => if i = 0 then 1 else 3) (fun _ => 0) (fun _ => 0) (fun _ => 6)
      (fun _ => 5) (fun _ => 0)).2.2 0 = 1/2 := by
    rw [h2 0 Nat.zero_lt_one]
    simp only [bnLocalVar, bnLocalMean, Finset.sum_range_succ, Finset.sum_range_zero]
    norm_num
  refine ⟨⟨Nat.zero_lt_one, by norm_num⟩, hm, hv, ?_⟩
  rw [h3 0 (by norm_num)]
  simp only [hm, hv]
  norm_num

/-! ## SoftMax forward closed form and shift invariance -/

/-- The row-maximum scan of `fwdSoftMaxInst`: `max` starts at `inW(n,0)` and is
folded over the whole row. -/
def softMaxRowMax (M : ℕ) (inW : T2) (n : ℕ) : ℚ :=
  loop M (fun i m => max m (inW (n, i))) (inW (n, 0))

/-- Closed form of the SoftMax forward at an in-range cell: both the output
and the saved cache equal `e(x - rowmax) / Σ e(x - rowmax)`. -/
theorem fwdSoftMaxInst_apply (eF : ℚ → ℚ) (N M : ℕ) (inW : T2) (outW EH : T2)
    (n i : ℕ) (hn : n < N) (hi : i < M) :
    (fwdSoftMaxInst eF N M inW outW EH).1 (n, i)
        = eF (inW (n, i) - softMaxRowMax M inW n)
          / (∑ j ∈ Finset.range M, eF (inW (n, j) - softMaxRowMax M inW n))
    ∧ (fwdSoftMaxInst eF N M inW outW EH).2 (n, i)
        = eF (inW (n, i) - softMaxRowMax M inW n)
          / (∑ j ∈ Finset.range M, eF (inW (n, j) - softMaxRowMax M inW n)) := by
  have hexpSum : ∀ m : ℕ, ∀ p0 : ℚ × T2,
      (loop M (fun j p => (p.1 + eF (inW (m, j) - softMaxRowMax M inW m),
          upd p.2 (m, j) (eF (inW (m, j) - softMaxRowMax M inW m)))) p0).1
        = p0.1 + ∑ j ∈ Finset.range M, eF (inW (m, j) - softMaxRowMax M inW m) := by
    intro m p0
    refine loop_obs_sum _ (fun p : ℚ × T2 => p.1)
      (fun j => eF (inW (m, j) - softMaxRowMax M inW m)) M ?_ p0
    intro j _ s
    rfl
  have hexpEH : ∀ m : ℕ, ∀ p0 : ℚ × T2,
      (loop M (fun j p => (p.1 + eF (inW (m, j) - softMaxRowMax M inW m),
          upd p.2 (m, j) (eF (inW (m, j) - softMaxRowMax M inW m)))) p0).2 (n, i)
        = if m = n then eF (inW (n, i) - softMaxRowMax M inW n) else p0.2 (n, i) := by
    intro m p0
    by_cases hm : m = n
    · subst hm
      rw [if_pos rfl]
      refine loop_obs_hit _ (fun p : ℚ × T2 => p.2 (m, i)) (fun _ => ())
        (fun _ => eF (inW (m, i) - softMaxRowMax M inW m)) i M hi ?_ ?_ ?_ p0
      · intro j _ s; rfl
      · intro s
        show upd s.2 (m, i) _ (m, i) = _
        rw [upd, if_pos rfl]
      · intro j h1 h2 s
        show upd s.2 (m, j) _ (m, i) = s.2 (m, i)
        rw [upd, if_neg (by simp [Prod.ext_iff]; omega)]
    · rw [if_neg hm]
      refine loop_obs_frame _ (fun p : ℚ × T2 => p.2 (n, i)) M ?_ p0
      intro j _ s
      show upd s.2 (m, j) _ (n, i) = s.2 (n, i)
      rw [upd, if_neg (by simp [Prod.ext_iff]; omega)]
  have hnorm1 : ∀ m : ℕ, ∀ S : ℚ, ∀ q0 : T2 × T2,
      (loop M (fun j (q : T2 × T2) => (upd q.1 (m, j) (q.2 (m, j) / S),
          upd q.2 (m, j) (q.2 (m, j) / S))) q0).1 (n, i)
        = if m = n then q0.2 (n, i) / S else q0.1 (n, i) := by
    intro m S q0
    by_cases hm : m = n
    · subst hm
      rw [if_pos rfl]
      refine loop_obs_hit _ (fun q : T2 × T2 => q.1 (m, i)) (fun q : T2 × T2 => q.2 (m, i))
        (fun a => a / S) i M hi ?_ ?_ ?_ q0
      · intro j hj s
        show upd s.2 (m, j) _ (m, i) = s.2 (m, i)
        rw [upd, if_neg (by simp [Prod.ext_iff]; omega)]
      · intro s
        show upd s.1 (m, i) _ (m, i) = s.2 (m, i) / S
        rw [upd, if_pos rfl]
      · intro j h1 h2 s
        show upd s.1 (m, j) _ (m, i) = s.1 (m, i)
        rw [upd, if_neg (by simp [Prod.ext_iff]; omega)]
    · rw [if_neg hm]
      refine loop_obs_frame _ (fun q : T2 × T2 => q.1 (n, i)) M ?_ q0
      intro j _ s
      show upd s.1 (m, j) _ (n, i) = s.1 (n, i)
      rw [upd, if_neg (by simp [Prod.ext_iff]; omega)]
  have hnorm2 : ∀ m : ℕ, ∀ S : ℚ, ∀ q0 : T2 × T2,
      (loop M (fun j (q : T2 × T2) => (upd q.1 (m, j) (q.2 (m, j) / S),
          upd q.2 (m, j) (q.2 (m, j) / S))) q0).2 (n, i)
        = if m = n then q0.2 (n, i) / S else q0.2 (n, i) := by
    intro m S q0
    by_cases hm : m = n
    · subst hm
      rw [if_pos rfl]
      refine loop_obs_hit _ (fun q : T2 × T2 => q.2 (m, i)) (fun q : T2 × T2 => q.2 (m, i))
        (fun a => a / S) i M hi ?_ ?_ ?_ q0
      · intro j hj s
        show upd s.2 (m, j) _ (m, i) = s.2 (m, i)
        rw [upd, if_neg (by simp [Prod.ext_iff]; omega)]
      · intro s
        show upd s.2 (m, i) _ (m, i) = s.2 (m, i) / S
        rw [upd, if_pos rfl]
      · intro j h1 h2 s
        show upd s.2 (m, j) _ (m, i) = s.2 (m, i)
        rw [upd, if_neg (by simp [Prod.ext_iff]; omega)]
    · rw [if_neg hm]
      refine loop_obs_frame _ (fun q : T2 × T2 => q.2 (n, i)) M ?_ q0
      intro j _ s
      show upd s.2 (m, j) _ (n, i) = s.2 (n, i)
      rw [upd, if_neg (by simp [Prod.ext_iff]; omega)]
  constructor
  · rw [fwdSoftMaxInst]
    refine loop_obs_hit _ (fun st : T2 × T2 => st.1 (n, i)) (fun _ => ())
      (fun _ => eF (inW (n, i) - softMaxRowMax M inW n)
        / (∑ j ∈ Finset.range M, eF (inW (n, j) - softMaxRowMax M inW n)))
      n N hn ?_ ?_ ?_ (outW, EH)
    · intro m _ s; rfl
    · intro s
      refine (hnorm1 n _ _).trans ?_
      rw [if_pos rfl]
      show (loop M (fun j p => (p.1 + eF (inW (n, j) - softMaxRowMax M inW n),
            upd p.2 (n, j) (eF (inW (n, j) - softMaxRowMax M inW n)))) (0, s.2)).2 (n, i)
          / (loop M (fun j p => (p.1 + eF (inW (n, j) - softMaxRowMax M inW n),
            upd p.2 (n, j) (eF (inW (n, j) - softMaxRowMax M inW n)))) (0, s.2)).1
        = eF (inW (n, i) - softMaxRowMax M inW n)
          / (∑ j ∈ Finset.range M, eF (inW (n, j) - softMaxRowMax M inW n))
      have he := hexpEH n (0, s.2)
      rw [if_pos rfl] at he
      have hs : (loop M (fun j p => (p.1 + eF (inW (n, j) - softMaxRowMax M inW n),
            upd p.2 (n, j) (eF (inW (n, j) - softMaxRowMax M inW n)))) (0, s.2)).1
          = 0 + ∑ j ∈ Finset.range M, eF (inW (n, j) - softMaxRowMax M inW n) :=
        hexpSum n (0, s.2)
      rw [he, hs, zero_add]
    · intro m h1 h2 s
      refine (hnorm1 m _ _).trans ?_
      rw [if_neg (by omega)]
  · rw [fwdSoftMaxInst]
    refine loop_obs_hit _ (fun st : T2 × T2 => st.2 (n, i)) (fun _ => ())
      (fun _ => eF (inW (n, i) - softMaxRowMax M inW n)
        / (∑ j ∈ Finset.range M, eF (inW (n, j) - softMaxRowMax M inW n)))
      n N hn ?_ ?_ ?_ (outW, EH)
    · intro m _ s; rfl
    · intro s
      refine (hnorm2 n _ _).trans ?_
      rw [if_pos rfl]
      show (loop M (fun j p => (p.1 + eF (inW (n, j) - softMaxRowMax M inW n),
            upd p.2 (n, j) (eF (inW (n, j) - softMaxRowMax M inW n)))) (0, s.2)).2 (n, i)
          / (loop M (fun j p => (p.1 + eF (inW (n, j) - softMaxRowMax M inW n),
            upd p.2 (n, j) (eF (inW (n, j) - softMaxRowMax M inW n)))) (0, s.2)).1
        = eF (inW (n, i) - softMaxRowMax M inW n)
          / (∑ j ∈ Finset.range M, eF (inW (n, j) - softMaxRowMax M inW n))
      have he := hexpEH n (0, s.2)
      rw [if_pos rfl] at he
      have hs : (loop M (fun j p => (p.1 + eF (inW (n, j) - softMaxRowMax M inW n),
            upd p.2 (n, j) (eF (inW (n, j) - softMaxRowMax M inW n)))) (0, s.2)).1
          = 0 + ∑ j ∈ Finset.range M, eF (inW (n, j) - softMaxRowMax M inW n) :=
        hexpSum n (0, s.2)
      rw [he, hs, zero_add]
    · intro m h1 h2 s
      refine (hnorm2 m _ _).trans ?_
      rw [if_neg (by omega)]
      exact hexpEH m (0, s.2) |>.trans (if_neg (by omega))

/-- Shifting a whole row shifts its scanned maximum by the same amount. -/
theorem softMaxRowMax_shift (M : ℕ) (inW : T2) (n : ℕ) (t : ℚ) :
    softMaxRowMax M (fun p => if p.1 = n then inW p + t else inW p) n
      = softMaxRowMax M inW n + t := by
  have hb : (fun (i : ℕ) (m : ℚ) =>
      max m ((fun p : ℕ × ℕ => if p.1 = n then inW p + t else inW p) (n, i)))
      = fun i m => max m (inW (n, i) + t) := by
    funext i m
    show max m (if ((n : ℕ), i).1 = n then inW (n, i) + t else inW (n, i)) = _
    rw [if_pos rfl]
  have hgen : ∀ (k : ℕ) (m0 : ℚ),
      loop k (fun i m => max m (inW (n, i) + t)) (m0 + t)
        = loop k (fun i m => max m (inW (n, i))) m0 + t := by
    intro k
    induction k with
    | zero => intro m0; rfl
    | succ j ih =>
      intro m0
      rw [loop_succ, loop_succ, ih, max_add_add_right]
  show loop M (fun i m => max m ((fun p : ℕ × ℕ => if p.1 = n then inW p + t else inW p) (n, i)))
      ((fun p : ℕ × ℕ => if p.1 = n then inW p + t else inW p) (n, 0))
    = softMaxRowMax M inW n + t
  rw [hb, show ((fun p : ℕ × ℕ => if p.1 = n then inW p + t else inW p) (n, 0))
    = inW (n, 0) + t from if_pos rfl]
  exact hgen M (inW (n, 0))

/-- C10: the SoftMax forward is shift-invariant per row — adding a constant `t`
to every element of `src` row `n` leaves both the output row and the saved
cache row unchanged (the row maximum is subtracted before `eF` is applied) —
and the output equals the saved cache exactly. -/
theorem C10_softmax_forward_shift_invariant (eF : ℚ → ℚ) (N M : ℕ) (inW : T2)
    (outW EH : T2) (t : ℚ) (n i : ℕ) (hn : n < N) (hi : i < M) :
    ((fwdSoftMaxInst eF N M (fun p => if p.1 = n then inW p + t else inW p) outW EH).1 (n, i)
        = (fwdSoftMaxInst eF N M inW outW EH).1 (n, i))
    ∧ ((fwdSoftMaxInst eF N M (fun p => if p.1 = n then inW p + t else inW p) outW EH).2 (n, i)
        = (fwdSoftMaxInst eF N M inW outW EH).2 (n, i))
    ∧ ((fwdSoftMaxInst eF N M inW outW EH).1 (n, i)
        = (fwdSoftMaxInst eF N M inW outW EH).2 (n, i)) := by
  have harg : ∀ j : ℕ,
      (fun p : ℕ × ℕ => if p.1 = n then inW p + t else inW p) (n, j)
          - softMaxRowMax M (fun p => if p.1 = n then inW p + t else inW p) n
        = inW (n, j) - softMaxRowMax M inW n := by
    intro j
    rw [softMaxRowMax_shift M inW n t,
      show ((fun p : ℕ × ℕ => if p.1 = n then inW p + t else inW p) (n, j))
        = inW (n, j) + t from if_pos rfl]
    ring
  obtain ⟨h1, h2⟩ := fwdSoftMaxInst_apply eF N M
    (fun p => if p.1 = n then inW p + t else inW p) outW EH n i hn hi
  obtain ⟨h3, h4⟩ := fwdSoftMaxInst_apply eF N M inW outW EH n i hn hi
  have hsame :
      eF ((fun p : ℕ × ℕ => if p.1 = n then inW p + t else inW p) (n, i)
          - softMaxRowMax M (fun p => if p.1 = n then inW p + t else inW p) n)
        / (∑ j ∈ Finset.range M,
            eF ((fun p : ℕ × ℕ => if p.1 = n then inW p + t else inW p) (n, j)
              - softMaxRowMax M (fun p => if p.1 = n then inW p + t else inW p) n))
      = eF (inW (n, i) - softMaxRowMax M inW n)
        / (∑ j ∈ Finset.range M, eF (inW (n, j) - softMaxRowMax M inW n)) := by
    rw [harg i]
    congr 1
    exact Finset.sum_congr rfl (fun j _ => by rw [harg j])
  exact ⟨by rw [h1, h3, hsame], by rw [h2, h4, hsame], by rw [h3, h4]⟩

/-- Witness for C10: row `[1, 2]` shifted by `t = 5` with the polynomial
model `eF q = q·q + 1`: both runs give `dest(0,0) = E(0,0) = 2/3`. -/
theorem C10_softmax_forward_shift_invariant_witness :
    ((0 : ℕ) < 1 ∧ (0 : ℕ) < 2)
    ∧ (fwdSoftMaxInst (fun q => q * q + 1) 1 2
        (fun p => if p.1 = 0 then (fun p : ℕ × ℕ => if p.2 = 0 then (1 : ℚ) else 2) p + 5
          else (fun p : ℕ × ℕ => if p.2 = 0 then (1 : ℚ) else 2) p)
        (fun _ => 0) (fun _ => 0)).1 (0, 0)
      = (fwdSoftMaxInst (fun q => q * q + 1) 1 2
          (fun p : ℕ × ℕ => if p.2 = 0 then (1 : ℚ) else 2) (fun _ => 0) (fun _ => 0)).1 (0, 0)
    ∧ (fwdSoftMaxInst (fun q => q * q + 1) 1 2
        (fun p : ℕ × ℕ => if p.2 = 0 then (1 : ℚ) else 2) (fun _ => 0) (fun _ => 0)).1 (0, 0)
      = 2/3
    ∧ (fwdSoftMaxInst (fun q => q * q + 1) 1 2
        (fun p : ℕ × ℕ => if p.2 = 0 then (1 : ℚ) else 2) (fun _ => 0) (fun _ => 0)).2 (0, 0)
      = 2/3 := by
  refine ⟨⟨by norm_num, by norm_num⟩, ?_, ?_, ?_⟩
  · exact (C10_softmax_forward_shift_invariant (fun q => q * q + 1) 1 2
      (fun p : ℕ × ℕ => if p.2 = 0 then (1 : ℚ) else 2) (fun _ => 0) (fun _ => 0) 5 0 0
      (by norm_num) (by norm_num)).1
  · simp only [fwdSoftMaxInst, loop_succ, loop_zero, upd, updAdd]
    norm_num [Prod.ext_iff]
  · simp only [fwdSoftMaxInst, loop_succ, loop_zero, upd, updAdd]
    norm_num [Prod.ext_iff]

/-! ## Convolution backward -/

/-- The gradient cells written by `bwdConvolutionInst`: the filter gradient
`fg d fx fy fd`, the input gradient `ig n x y fd`, and the bias gradient
`bg d`, combined into one state so the kernel's interleaved `+=` updates can
be modelled as one accumulating map. -/
inductive CIdx where
  | fg : ℕ → ℕ → ℕ → ℕ → CIdx
  | ig : ℕ → ℕ → ℕ → ℕ → CIdx
  | bg : ℕ → CIdx
deriving DecidableEq

/-- The kernel `Interpreter::bwdConvolutionInst`: for each `(n, d, ay, ax)` read
`chainGrad = outG(n,ax,ay,d)`, then for each in-window `(fy, fx, fd)` (the
bounds test is against `odim` as in the source) accumulate
`filterG(d,fx,fy,fd) += src(0, ox, oy, fd) * chainGrad` — note the batch-0
read — and `inG(n, ox, oy, fd) += filter(d,fx,fy,fd) * chainGrad`; finally
`biasG(d) += chainGrad`. -/
def bwdConvolutionInst (odim idim : ShapeNHWC) (kernel pad stride : ℕ)
    (inW filterW : T4) (outG : T4) (G : CIdx → ℚ) : CIdx → ℚ :=
  loop odim.n (fun n G =>
    loop odim.c (fun d G =>
      loop odim.w (fun ay G =>
        loop odim.h (fun ax G =>
          let y : ℤ := anchor pad stride ay
          let x : ℤ := anchor pad stride ax
          let chainGrad := outG (n, ax, ay, d)
          updAdd
            (loop kernel (fun fy G =>
              loop kernel (fun fx G =>
                let ox : ℤ := x + fx
                let oy : ℤ := y + fy
                if outOfRange odim.h odim.w ox oy then G
                else
                  loop idim.c (fun fd G =>
                    updAdd
                      (updAdd G (CIdx.fg d fx fy fd)
                        (inW (0, ox.toNat, oy.toNat, fd) * chainGrad))
                      (CIdx.ig n ox.toNat oy.toNat fd)
                      (filterW (d, fx, fy, fd) * chainGrad)) G) G) G)
            (CIdx.bg d) chainGrad) G) G) G) G

theorem addBy_ite_skip {α : Type} (p : Prop) [Decidable p] {F : (α → ℚ) → (α → ℚ)}
    {D : α → ℚ} (h : AddBy F D) :
    AddBy (fun g => if p then g else F g) (fun c => if p then 0 else D c) := by
  intro g c
  by_cases hp : p <;> simp [hp, h g c]

/-- The total accumulation of `bwdConvolutionInst` into each gradient cell. -/
def bwdConvDelta (odim idim : ShapeNHWC) (kernel pad stride : ℕ)
    (inW filterW : T4) (outG : T4) (c : CIdx) : ℚ :=
  ∑ n ∈ Finset.range odim.n, ∑ d ∈ Finset.range odim.c,
    ∑ ay ∈ Finset.range odim.w, ∑ ax ∈ Finset.range odim.h,
      ((∑ fy ∈ Finset.range kernel, ∑ fx ∈ Finset.range kernel,
        (if outOfRange odim.h odim.w (anchor pad stride ax + fx) (anchor pad stride ay + fy)
         then 0
         else ∑ fd ∈ Finset.range idim.c,
           ((if c = CIdx.fg d fx fy fd
             then inW (0, (anchor pad stride ax + fx).toNat,
               (anchor pad stride ay + fy).toNat, fd) * outG (n, ax, ay, d)
             else 0)
            + (if c = CIdx.ig n (anchor pad stride ax + fx).toNat
                (anchor pad stride ay + fy).toNat fd
               then filterW (d, fx, fy, fd) * outG (n, ax, ay, d)
               else 0))))
       + (if c = CIdx.bg d then outG (n, ax, ay, d) else 0))

/-- The convolution backward kernel adds `bwdConvDelta` to every gradient cell. -/
theorem bwdConvolutionInst_addBy (odim idim : ShapeNHWC) (kernel pad stride : ℕ)
    (inW filterW : T4) (outG : T4) (G : CIdx → ℚ) (c : CIdx) :
    bwdConvolutionInst odim idim kernel pad stride inW filterW outG G c
      = G c + bwdConvDelta odim idim kernel pad stride inW filterW outG c := by
  have h : AddBy (loop odim.n (fun n G =>
      loop odim.c (fun d G =>
        loop odim.w (fun ay G =>
          loop odim.h (fun ax G =>
            updAdd
              (loop kernel (fun fy G =>
                loop kernel (fun fx G =>
                  if outOfRange odim.h odim.w (anchor pad stride ax + fx)
                      (anchor pad stride ay + fy) then G
                  else
                    loop idim.c (fun fd G =>
                      updAdd
                        (updAdd G (CIdx.fg d fx fy fd)
                          (inW (0, (anchor pad stride ax + fx).toNat,
                            (anchor pad stride ay + fy).toNat, fd) * outG (n, ax, ay, d)))
                        (CIdx.ig n (anchor pad stride ax + fx).toNat
                          (anchor pad stride ay + fy).toNat fd)
                        (filterW (d, fx, fy, fd) * outG (n, ax, ay, d))) G) G) G)
              (CIdx.bg d) (outG (n, ax, ay, d))) G) G) G))
      (fun c => bwdConvDelta odim idim kernel pad stride inW filterW outG c) := by
    simp only [bwdConvDelta]
    apply addBy_loop
    intro n _
    apply addBy_loop
    intro d _
    apply addBy_loop
    intro ay _
    apply addBy_loop
    intro ax _
    refine addBy_comp ?_ (addBy_updAdd (CIdx.bg d) (outG (n, ax, ay, d)))
    apply addBy_loop
    intro fy _
    apply addBy_loop
    intro fx _
    refine addBy_ite_skip _ ?_
    apply addBy_loop
    intro fd _
    exact addBy_comp
      (addBy_updAdd (CIdx.fg d fx fy fd)
        (inW (0, (anchor pad stride ax + fx).toNat,
          (anchor pad stride ay + fy).toNat, fd) * outG (n, ax, ay, d)))
      (addBy_updAdd (CIdx.ig n (anchor pad stride ax + fx).toNat
          (anchor pad stride ay + fy).toNat fd)
        (filterW (d, fx, fy, fd) * outG (n, ax, ay, d)))
  exact h G c

/-- C2: in the convolution backward kernel, the filter-gradient update reads
`src` at batch index 0 — not the current batch `n` — accumulating
`filterG(d,fx,fy,fd) += src(0, x+fx, y+fy, fd) · outG(n,ax,ay,d)` over every
batch and in-window output position; meanwhile
`inG(n, x+fx, y+fy, fd) += filter(d,fx,fy,fd) · outG(n,ax,ay,d)` and
`biasG(d) += outG(n,ax,ay,d)`, all accumulating on top of the pre-existing
gradient contents `G`. -/
theorem C2_conv_backward_filter_grad_reads_batch_zero (odim idim : ShapeNHWC)
    (kernel pad stride : ℕ) (inW filterW : T4) (outG : T4) (G : CIdx → ℚ) :
    (∀ d fx fy fd, d < odim.c → fx < kernel → fy < kernel → fd < idim.c →
      bwdConvolutionInst odim idim kernel pad stride inW filterW outG G (CIdx.fg d fx fy fd)
        = G (CIdx.fg d fx fy fd)
          + ∑ n ∈ Finset.range odim.n, ∑ ay ∈ Finset.range odim.w,
              ∑ ax ∈ Finset.range odim.h,
              (if outOfRange odim.h odim.w (anchor pad stride ax + fx)
                  (anchor pad stride ay + fy) then 0
               else inW (0, (anchor pad stride ax + fx).toNat,
                 (anchor pad stride ay + fy).toNat, fd) * outG (n, ax, ay, d)))
    ∧ (∀ n ix iy fd, n < odim.n → fd < idim.c →
      bwdConvolutionInst odim idim kernel pad stride inW filterW outG G (CIdx.ig n ix iy fd)
        = G (CIdx.ig n ix iy fd)
          + ∑ d ∈ Finset.range odim.c, ∑ ay ∈ Finset.range odim.w,
              ∑ ax ∈ Finset.range odim.h, ∑ fy ∈ Finset.range kernel,
              ∑ fx ∈ Finset.range kernel,
              (if outOfRange odim.h odim.w (anchor pad stride ax + fx)
                  (anchor pad stride ay + fy) then 0
               else if ix = (anchor pad stride ax + fx).toNat
                   ∧ iy = (anchor pad stride ay + fy).toNat
                 then filterW (d, fx, fy, fd) * outG (n, ax, ay, d) else 0))
    ∧ (∀ d, d < odim.c →
      bwdConvolutionInst odim idim kernel pad stride inW filterW outG G (CIdx.bg d)
        = G (CIdx.bg d)
          + ∑ n ∈ Finset.range odim.n, ∑ ay ∈ Finset.range odim.w,
              ∑ ax ∈ Finset.range odim.h, outG (n, ax, ay, d)) := by
  refine ⟨?_, ?_, ?_⟩
  · intro d fx fy fd hd hfx hfy hfd
    rw [bwdConvolutionInst_addBy, bwdConvDelta]
    congr 1
    refine Finset.sum_congr rfl (fun n _ => ?_)
    rw [Finset.sum_eq_single_of_mem d (Finset.mem_range.2 hd)
      (fun b _ hb => by simp [Ne.symm hb])]
    refine Finset.sum_congr rfl (fun ay _ => ?_)
    refine Finset.sum_congr rfl (fun ax _ => ?_)
    rw [if_neg (by simp), add_zero]
    rw [Finset.sum_eq_single_of_mem fy (Finset.mem_range.2 hfy)
      (fun b _ hb => by simp [Ne.symm hb])]
    rw [Finset.sum_eq_single_of_mem fx (Finset.mem_range.2 hfx)
      (fun b _ hb => by simp [Ne.symm hb])]
    by_cases hg : outOfRange odim.h odim.w (anchor pad stride ax + fx)
        (anchor pad stride ay + fy)
    · rw [if_pos hg, if_pos hg]
    · rw [if_neg hg, if_neg hg]
      simp [Finset.sum_ite_eq, hfd]
  · intro n ix iy fd hn hfd
    rw [bwdConvolutionInst_addBy, bwdConvDelta]
    congr 1
    rw [Finset.sum_eq_single_of_mem n (Finset.mem_range.2 hn)
      (fun b _ hb => by simp [Ne.symm hb])]
    refine Finset.sum_congr rfl (fun d _ => ?_)
    refine Finset.sum_congr rfl (fun ay _ => ?_)
    refine Finset.sum_congr rfl (fun ax _ => ?_)
    rw [if_neg (by simp), add_zero]
    refine Finset.sum_congr rfl (fun fy _ => ?_)
    refine Finset.sum_congr rfl (fun fx _ => ?_)
    by_cases hg : outOfRange odim.h odim.w (anchor pad stride ax + fx)
        (anchor pad stride ay + fy)
    · rw [if_pos hg, if_pos hg]
    · rw [if_neg hg, if_neg hg]
      by_cases hxy : ix = (anchor pad stride ax + fx).toNat
          ∧ iy = (anchor pad stride ay + fy).toNat
      · rw [if_pos hxy]
        simp [hxy.1, hxy.2, Finset.sum_ite_eq, hfd]
      · rw [if_neg hxy]
        refine Finset.sum_eq_zero (fun b _ => ?_)
        have : ¬ (ix = (anchor pad stride ax + fx).toNat
            ∧ iy = (anchor pad stride ay + fy).toNat ∧ fd = b) :=
          fun hco => hxy ⟨hco.1, hco.2.1⟩
        simp only [CIdx.ig.injEq]
        rw [if_neg (by simp), if_neg (fun hco => this ⟨hco.2.1, hco.2.2.1, hco.2.2.2⟩)]
        simp
  · intro d hd
    rw [bwdConvolutionInst_addBy, bwdConvDelta]
    congr 1
    refine Finset.sum_congr rfl (fun n _ => ?_)
    rw [Finset.sum_eq_single_of_mem d (Finset.mem_range.2 hd)
      (fun b _ hb => by simp [Ne.symm hb])]
    refine Finset.sum_congr rfl (fun ay _ => ?_)
    refine Finset.sum_congr rfl (fun ax _ => ?_)
    simp

/-- Witness for C2: a 1×1 convolution on a single batch with `src(0,·) = 7`,
`filter = 11`, `outG = 2`, and all gradients pre-set to 1: the backward yields
`filterG = 1 + 7·2 = 15`, `inG = 1 + 11·2 = 23`, `biasG = 1 + 2 = 3`, all
accumulated. -/
theorem C2_conv_backward_filter_grad_reads_batch_zero_witness :
    ((0 : ℕ) < 1)
    ∧ bwdConvolutionInst ⟨1, 1, 1, 1⟩ ⟨1, 1, 1, 1⟩ 1 0 1
        (fun _ => 7) (fun _ => 11) (fun _ => 2) (fun _ => 1) (CIdx.fg 0 0 0 0) = 15
    ∧ bwdConvolutionInst ⟨1, 1, 1, 1⟩ ⟨1, 1, 1, 1⟩ 1 0 1
        (fun _ => 7) (fun _ => 11) (fun _ => 2) (fun _ => 1) (CIdx.ig 0 0 0 0) = 23
    ∧ bwdConvolutionInst ⟨1, 1, 1, 1⟩ ⟨1, 1, 1, 1⟩ 1 0 1
        (fun _ => 7) (fun _ => 11) (fun _ => 2) (fun _ => 1) (CIdx.bg 0) = 3 := by
  obtain ⟨h1, h2, h3⟩ := C2_conv_backward_filter_grad_reads_batch_zero ⟨1, 1, 1, 1⟩
    ⟨1, 1, 1, 1⟩ 1 0 1 (fun _ => 7) (fun _ => 11) (fun _ => 2) (fun _ => 1)
  refine ⟨by norm_num, ?_, ?_, ?_⟩
  · rw [h1 0 0 0 0 (by norm_num) (by norm_num) (by norm_num) (by norm_num)]
    simp only [Finset.sum_range_succ, Finset.sum_range_zero, anchor, outOfRange]
    norm_num
  · rw [h2 0 0 0 0 (by norm_num) (by norm_num)]
    simp only [Finset.sum_range_succ, Finset.sum_range_zero, anchor, outOfRange]
    norm_num
  · rw [h3 0 (by norm_num)]
    simp only [Finset.sum_range_succ, Finset.sum_range_zero]
    norm_num

/-! ## Remaining forward kernels -/

/-- A tensor indexed by a coordinate list (shape ops of arbitrary rank). -/
abbrev TL := List ℕ → FloatTy

/-- A tensor indexed by a coordinate map (transpose of arbitrary rank). -/
abbrev TC := (ℕ → ℕ) → FloatTy

/-- The kernel `Interpreter::fwdFullyConnectedInst`.  The flatten-cdr view of the handles
(`getElementPtr({n})` plus `raw(base + j)`) is modelled from the spec: elements
are row-major, so the flattened input is indexed as a 2-D tensor `(n, j)`. -/
def fwdFullyConnectedInst (N inputSize outSize : ℕ) (inW : T2) (filterW : T2)
    (biasW : T1) (outW : T2) : T2 :=
  loop N (fun n o =>
    loop outSize (fun i o =>
      let sum : FloatTy := loop inputSize (fun j s => s + inW (n, j) * filterW (i, j)) 0
      upd o (n, i) (sum + biasW i)) o) outW

/-- The kernel `Interpreter::fwdSigmoidInst`: `out[i] = 1 / (1 + exp(-in[i]))`, with
`std::exp` passed as `eF`. -/
def fwdSigmoidInst (eF : ℚ → ℚ) (size : ℕ) (inW outW : T1) : T1 :=
  loop size (fun i o => upd o i (1 / (1 + eF (-(inW i))))) outW

/-- The kernel `Interpreter::fwdTanhInst`: `out[i] = (eˣ - e⁻ˣ)/(eˣ + e⁻ˣ)`. -/
def fwdTanhInst (eF : ℚ → ℚ) (size : ℕ) (inW outW : T1) : T1 :=
  loop size (fun i o =>
    let expVal := eF (inW i)
    let expNegVal := eF (-(inW i))
    upd o i ((expVal - expNegVal) / (expVal + expNegVal))) outW

/-- The kernel `Interpreter::fwdRegressionInst`: forward is a flat copy. -/
def fwdRegressionInst (size : ℕ) (inW outW : T1) : T1 :=
  loop size (fun i o => upd o i (inW i)) outW

/-- The kernel `Interpreter::fwdReshapeInst`: a flat copy. -/
def fwdReshapeInst (size : ℕ) (inW outW : T1) : T1 :=
  loop size (fun i o => upd o i (inW i)) outW

/-- The kernel `Interpreter::fwdTransposeInst`.  Modelled from the spec: the handle
`transpose(dest, shuffle)` operation (the Tensor library is not under src)
permutes `src` into `dest` under the permutation vector, so the destination
at coordinate `c` reads the source at the shuffled coordinate. -/
def fwdTransposeInst (shuffle : ℕ → ℕ) (inW : TC) : TC :=
  fun c => inW (c ∘ shuffle)

/-- Modelled from the spec: the handle `insertTensors(src, offset)` operation
(the Tensor library is not under src) writes `src`, of extents `srcDims`, into
the tensor at the coordinate offset, leaving other cells unchanged. -/
def insertTensors (srcDims : List ℕ) (src : TL) (offset : List ℕ) (out : TL) : TL :=
  fun c =>
    if (List.range srcDims.length).all (fun j =>
        decide (offset.getD j 0 ≤ c.getD j 0)
          && decide (c.getD j 0 - offset.getD j 0 < srcDims.getD j 0))
    then src ((List.range srcDims.length).map (fun j => c.getD j 0 - offset.getD j 0))
    else out c

/-- The kernel `Interpreter::fwdConcatInst`: insert each input tensor (operands 1..) into
`dest`, advancing the offset along the concat axis `dim` by each input's
extent there. -/
def fwdConcatInst (dim : ℕ) (inputs : List (List ℕ × TL)) (outW : TL) : TL :=
  (inputs.foldl (fun (st : TL × ℕ) inp =>
    (insertTensors inp.1 inp.2
        ((List.range inp.1.length).map (fun j => if j = dim then st.2 else 0)) st.1,
     st.2 + inp.1.getD dim 0)) (outW, 0)).1

/-- The kernel `Interpreter::fwdLocalResponseNormalizationInst`, with `std::pow` passed
as `powF`.  The running `squareSum` is initialised over channels
`1 ≤ c ≤ halfWindowSize, c < C` and slid across the channel axis; the scale is
cached and the output is `src · scale^(-beta)`.  Returns `(out, scaleCache)`. -/
def fwdLocalResponseNormalizationInst (idim : ShapeNHWC) (halfWindowSize : ℕ)
    (alpha beta k : ℚ) (powF : ℚ → ℚ → ℚ) (inW : T4) (outW scaleCache : T4) : T4 × T4 :=
  let windowSize : ℕ := 2 * halfWindowSize + 1
  let normedAlpha := alpha / (windowSize : ℚ)
  loop idim.n (fun n st =>
    loop idim.h (fun h st =>
      loop idim.w (fun w st =>
        let sq0 : ℚ := loop (min halfWindowSize (idim.c - 1)) (fun j s =>
          let val := inW (n, h, w, j + 1)
          s + val * val) 0
        (loop idim.c (fun c (q : ℚ × T4 × T4) =>
          let scale := k + normedAlpha * q.1
          let sc := upd q.2.2 (n, h, w, c) scale
          let o := upd q.2.1 (n, h, w, c) (inW (n, h, w, c) * powF scale (-beta))
          let sub := if halfWindowSize ≤ c then inW (n, h, w, c - halfWindowSize) else 0
          let add := if c + halfWindowSize + 1 < idim.c
            then inW (n, h, w, c + halfWindowSize + 1) else 0
          (q.1 - sub * sub + add * add, o, sc)) (sq0, st)).2) st) st) (outW, scaleCache)

/-! ## Context wrappers and the forward frame property

The execution context binds every IR value to a weight tensor and a gradient
tensor (spec §3).  Each record below is the slice of the context a kernel's
instruction names; the forward wrapper updates exactly the weight and scratch
tensors the C++ forward writes — the source forward kernels obtain handles
only via `getWeightHandle`/`getTensorForValue`, never `getGradHandle`. -/

structure ConvCtx where
  src : T4
  filter : T4
  bias : T1
  dest : T4
  srcG : T4
  filterG : T4
  biasG : T1
  destG : T4

def fwdConvolutionCtx (odim idim : ShapeNHWC) (kernel pad stride : ℕ) (s : ConvCtx) :
    ConvCtx :=
  { s with dest := fwdConvolutionInst odim idim kernel pad stride s.src s.filter s.bias s.dest }

/-- The two kinds of `PoolInst`. -/
inductive PoolOpKind where
  | max : PoolOpKind
  | avg : PoolOpKind

structure PoolCtx where
  src : T4
  dest : T4
  srcXY : T5n
  srcG : T4
  destG : T4

/-- The dispatcher `Interpreter::fwdPoolInst`: dispatch on the instruction kind. -/
def fwdPoolCtx (kind : PoolOpKind) (odim idim : ShapeNHWC) (kernel pad stride : ℕ)
    (s : PoolCtx) : PoolCtx :=
  match kind with
  | .max =>
    let r := fwdPoolMaxInst odim idim kernel pad stride s.src s.dest s.srcXY
    { s with dest := r.1, srcXY := r.2 }
  | .avg => { s with dest := fwdPoolAvgInst odim idim kernel pad stride s.src s.dest }

structure FullyConnectedCtx where
  src : T2
  filter : T2
  bias : T1
  dest : T2
  srcG : T2
  filterG : T2
  biasG : T1
  destG : T2

def fwdFullyConnectedCtx (N inputSize outSize : ℕ) (s : FullyConnectedCtx) :
    FullyConnectedCtx :=
  { s with dest := fwdFullyConnectedInst N inputSize outSize s.src s.filter s.bias s.dest }

/-- The context slice of a unary elementwise instruction (`src`, `dest`). -/
structure UnaryCtx where
  src : T1
  dest : T1
  srcG : T1
  destG : T1

def fwdReluCtx (size : ℕ) (s : UnaryCtx) : UnaryCtx :=
  { s with dest := fwdReluInst size s.src s.dest }

def fwdSigmoidCtx (eF : ℚ → ℚ) (size : ℕ) (s : UnaryCtx) : UnaryCtx :=
  { s with dest := fwdSigmoidInst eF size s.src s.dest }

def fwdTanhCtx (eF : ℚ → ℚ) (size : ℕ) (s : UnaryCtx) : UnaryCtx :=
  { s with dest := fwdTanhInst eF size s.src s.dest }

def fwdReshapeCtx (size : ℕ) (s : UnaryCtx) : UnaryCtx :=
  { s with dest := fwdReshapeInst size s.src s.dest }

structure RegressionCtx where
  src : T1
  expected : T1
  dest : T1
  srcG : T1
  expectedG : T1
  destG : T1

def fwdRegressionCtx (size : ℕ) (s : RegressionCtx) : RegressionCtx :=
  { s with dest := fwdRegressionInst size s.src s.dest }

structure SoftMaxCtx where
  src : T2
  dest : T2
  e : T2
  selected : ℕ → ℕ
  srcG : T2
  destG : T2

def fwdSoftMaxCtx (eF : ℚ → ℚ) (N M : ℕ) (s : SoftMaxCtx) : SoftMaxCtx :=
  let r := fwdSoftMaxInst eF N M s.src s.dest s.e
  { s with dest := r.1, e := r.2 }

structure TransposeCtx where
  src : TC
  dest : TC
  srcG : TC
  destG : TC

def fwdTransposeCtx (shuffle : ℕ → ℕ) (s : TransposeCtx) : TransposeCtx :=
  { s with dest := fwdTransposeInst shuffle s.src }

structure ConcatCtx where
  inputs : List (List ℕ × TL)
  dest : TL
  inputGrads : List TL
  destG : TL

def fwdConcatCtx (dim : ℕ) (s : ConcatCtx) : ConcatCtx :=
  { s with dest := fwdConcatInst dim s.inputs s.dest }

structure BatchNormCtx where
  src : T1
  dest : T1
  scale : T1
  bias : T1
  mean : T1
  var : T1
  srcG : T1
  destG : T1
  scaleG : T1
  biasG : T1
  meanG : T1
  varG : T1

/-- The dispatcher `Interpreter::fwdBatchNormalizationInst`: dispatch on `isTrain`. -/
def fwdBatchNormalizationCtx (isTrain : Bool) (size numChannels : ℕ) (chanOf : ℕ → ℕ)
    (momentum epsilon : ℚ) (sqrtF : ℚ → ℚ) (s : BatchNormCtx) : BatchNormCtx :=
  if isTrain then
    let r := fwdBatchNormalizationInst_train size numChannels chanOf momentum epsilon sqrtF
      s.src s.mean s.var s.scale s.bias s.dest
    { s with dest := r.1, mean := r.2.1, var := r.2.2 }
  else
    { s with dest := (fwdBatchNormalizationInst_infer size chanOf epsilon sqrtF
        s.src s.mean s.var s.scale s.bias s.dest) }

structure LRNCtx where
  src : T4
  dest : T4
  scale : T4
  srcG : T4
  destG : T4
  scaleG : T4

def fwdLocalResponseNormalizationCtx (idim : ShapeNHWC) (halfWindowSize : ℕ)
    (alpha beta k : ℚ) (powF : ℚ → ℚ → ℚ) (s : LRNCtx) : LRNCtx :=
  let r := fwdLocalResponseNormalizationInst idim halfWindowSize alpha beta k powF
    s.src s.dest s.scale
  { s with dest := r.1, scale := r.2 }

structure ArithmeticCtx where
  lhs : T1
  rhs : T1
  dest : T1
  lhsG : T1
  rhsG : T1
  destG : T1

def fwdArithmeticCtx (kind : ArithOpKind) (size : ℕ) (s : ArithmeticCtx) : ArithmeticCtx :=
  { s with dest := fwdArithmeticInst kind size s.lhs s.rhs s.dest }

/-- C9: every primitive's forward kernel — convolution, pooling (both kinds),
fully-connected, the activations, softmax, regression, the shape ops, batch
normalization (both modes), LRN and elementwise arithmetic — leaves the
gradient tensors of all of its operands completely unchanged; only weight
tensors and the instruction's saved scratch tensors are written. -/
theorem C9_forward_kernels_leave_gradients_unchanged :
    (∀ (odim idim : ShapeNHWC) (kernel pad stride : ℕ) (s : ConvCtx),
      (fwdConvolutionCtx odim idim kernel pad stride s).srcG = s.srcG
      ∧ (fwdConvolutionCtx odim idim kernel pad stride s).filterG = s.filterG
      ∧ (fwdConvolutionCtx odim idim kernel pad stride s).biasG = s.biasG
      ∧ (fwdConvolutionCtx odim idim kernel pad stride s).destG = s.destG)
    ∧ (∀ (kind : PoolOpKind) (odim idim : ShapeNHWC) (kernel pad stride : ℕ) (s : PoolCtx),
      (fwdPoolCtx kind odim idim kernel pad stride s).srcG = s.srcG
      ∧ (fwdPoolCtx kind odim idim kernel pad stride s).destG = s.destG)
    ∧ (∀ (N inputSize outSize : ℕ) (s : FullyConnectedCtx),
      (fwdFullyConnectedCtx N inputSize outSize s).srcG = s.srcG
      ∧ (fwdFullyConnectedCtx N inputSize outSize s).filterG = s.filterG
      ∧ (fwdFullyConnectedCtx N inputSize outSize s).biasG = s.biasG
      ∧ (fwdFullyConnectedCtx N inputSize outSize s).destG = s.destG)
    ∧ (∀ (size : ℕ) (s : UnaryCtx),
      (fwdReluCtx size s).srcG = s.srcG ∧ (fwdReluCtx size s).destG = s.destG)
    ∧ (∀ (eF : ℚ → ℚ) (size : ℕ) (s : UnaryCtx),
      (fwdSigmoidCtx eF size s).srcG = s.srcG ∧ (fwdSigmoidCtx eF size s).destG = s.destG)
    ∧ (∀ (eF : ℚ → ℚ) (size : ℕ) (s : UnaryCtx),
      (fwdTanhCtx eF size s).srcG = s.srcG ∧ (fwdTanhCtx eF size s).destG = s.destG)
    ∧ (∀ (eF : ℚ → ℚ) (N M : ℕ) (s : SoftMaxCtx),
      (fwdSoftMaxCtx eF N M s).srcG = s.srcG ∧ (fwdSoftMaxCtx eF N M s).destG = s.destG)
    ∧ (∀ (size : ℕ) (s : RegressionCtx),
      (fwdRegressionCtx size s).srcG = s.srcG
      ∧ (fwdRegressionCtx size s).expectedG = s.expectedG
      ∧ (fwdRegressionCtx size s).destG = s.destG)
    ∧ (∀ (shuffle : ℕ → ℕ) (s : TransposeCtx),
      (fwdTransposeCtx shuffle s).srcG = s.srcG
      ∧ (fwdTransposeCtx shuffle s).destG = s.destG)
    ∧ (∀ (size : ℕ) (s : UnaryCtx),
      (fwdReshapeCtx size s).srcG = s.srcG ∧ (fwdReshapeCtx size s).destG = s.destG)
    ∧ (∀ (dim : ℕ) (s : ConcatCtx),
      (fwdConcatCtx dim s).inputGrads = s.inputGrads
      ∧ (fwdConcatCtx dim s).destG = s.destG)
    ∧ (∀ (isTrain : Bool) (size numChannels : ℕ) (chanOf : ℕ → ℕ) (momentum epsilon : ℚ)
        (sqrtF : ℚ → ℚ) (s : BatchNormCtx),
      (fwdBatchNormalizationCtx isTrain size numChannels chanOf momentum epsilon sqrtF s).srcG
          = s.srcG
      ∧ (fwdBatchNormalizationCtx isTrain size numChannels chanOf momentum epsilon sqrtF
          s).destG = s.destG
      ∧ (fwdBatchNormalizationCtx isTrain size numChannels chanOf momentum epsilon sqrtF
          s).scaleG = s.scaleG
      ∧ (fwdBatchNormalizationCtx isTrain size numChannels chanOf momentum epsilon sqrtF
          s).biasG = s.biasG
      ∧ (fwdBatchNormalizationCtx isTrain size numChannels chanOf momentum epsilon sqrtF
          s).meanG = s.meanG
      ∧ (fwdBatchNormalizationCtx isTrain size numChannels chanOf momentum epsilon sqrtF
          s).varG = s.varG)
    ∧ (∀ (idim : ShapeNHWC) (halfWindowSize : ℕ) (alpha beta k : ℚ) (powF : ℚ → ℚ → ℚ)
        (s : LRNCtx),
      (fwdLocalResponseNormalizationCtx idim halfWindowSize alpha beta k powF s).srcG = s.srcG
      ∧ (fwdLocalResponseNormalizationCtx idim halfWindowSize alpha beta k powF s).destG
          = s.destG
      ∧ (fwdLocalResponseNormalizationCtx idim halfWindowSize alpha beta k powF s).scaleG
          = s.scaleG)
    ∧ (∀ (kind : ArithOpKind) (size : ℕ) (s : ArithmeticCtx),
      (fwdArithmeticCtx kind size s).lhsG = s.lhsG
      ∧ (fwdArithmeticCtx kind size s).rhsG = s.rhsG
      ∧ (fwdArithmeticCtx kind size s).destG = s.destG) := by
  refine ⟨?_, ?_, ?_, ?_, ?_, ?_, ?_, ?_, ?_, ?_, ?_, ?_, ?_, ?_⟩
  · intro odim idim kernel pad stride s
    exact ⟨rfl, rfl, rfl, rfl⟩
  · intro kind odim idim kernel pad stride s
    cases kind <;> exact ⟨rfl, rfl⟩
  · intro N inputSize outSize s
    exact ⟨rfl, rfl, rfl, rfl⟩
  · intro size s
    exact ⟨rfl, rfl⟩
  · intro eF size s
    exact ⟨rfl, rfl⟩
  · intro eF size s
    exact ⟨rfl, rfl⟩
  · intro eF N M s
    exact ⟨rfl, rfl⟩
  · intro size s
    exact ⟨rfl, rfl, rfl⟩
  · intro shuffle s
    exact ⟨rfl, rfl⟩
  · intro size s
    exact ⟨rfl, rfl⟩
  · intro dim s
    exact ⟨rfl, rfl⟩
  · intro isTrain size numChannels chanOf momentum epsilon sqrtF s
    cases isTrain <;> exact ⟨rfl, rfl, rfl, rfl, rfl, rfl⟩
  · intro idim halfWindowSize alpha beta k powF s
    exact ⟨rfl, rfl, rfl⟩
  · intro kind size s
    cases kind <;> exact ⟨rfl, rfl, rfl⟩

end Glow
